import Mathlib

/-!
# Verification of the bzip2 canonical Huffman tree (compress/bzip2/huffman.go)

A shallow embedding of `huffman.go` from this repository: the tree data type,
the canonical code assignment, the recursive node partition
(`buildHuffmanNode`), the construction entry point (`newHuffmanTree`), and the
bit-by-bit decoder (`Decode`).

Modelling conventions:

* Go `uint32` arithmetic is `Nat` with an explicit `% 4294967296` where the
  source can overflow; `uint16` conversions are `% 65536`; `uint8` subtraction
  `32 - length` is `(288 - length % 256) % 256`.
* The slice indices `l`, `r`, `firstRightIndex` of `buildHuffmanNode` are Go
  `int`s and are embedded as `Int` (the source can produce negative values).
  Out-of-range slice accesses, which panic in Go, return `HuffError.panicIndex`.
* The recursion of `buildHuffmanNode` is not structurally decreasing, so the
  embedding takes a fuel parameter decremented at each call; `hugeFuel = 2^32`
  calls is far beyond any recursion the function is designed to perform,
  and running out of fuel is reported as the distinguished `HuffError.outOfFuel`.
  The `level` parameter is a Go `uint32`; we keep it as an unbounded `Nat` and
  apply the `% 4294967296` reduction exactly where the source reads it
  (in `31 - level` and in `level == 31`), which agrees with Go at every
  physically realisable recursion depth.
* `sort.Slice` on the (length, value) pairs is modelled by insertion sort with
  the source's comparator made reflexive: the comparator is a strict total
  order on the pairs (the values are pairwise distinct indices), so every
  correct sorting algorithm produces the same list.  `sort.Sort` on the codes
  compares only the 32-bit code and Go's algorithm is unstable; insertion sort
  is one admissible refinement, and no success/error outcome below depends on
  the relative order of equal codes (the comparisons in `buildHuffmanNode`
  read only the codes).
* The bit source (`bitReader`, file `bit_reader.go`) is not part of `src/`;
  per the spec it hands the decoder one bit at a time, most significant first,
  and signals exhaustion.  It is modelled as a `List Bool`, exhaustion being
  the empty list (`DecodeError.truncated`).
-/

set_option linter.unusedVariables false

namespace Bzip2

/-- A node of the Huffman tree (`huffmanNode` in the source): `left`/`right`
hold `uint16` child indices (`invalidNodeValue` marking a leaf whose symbol is
stored inline in `leftValue`/`rightValue`). -/
structure HuffmanNode where
  left : Nat
  right : Nat
  leftValue : Nat
  rightValue : Nat
deriving DecidableEq, Repr

/-- `invalidNodeValue = 0xffff`, the leaf sentinel. -/
def invalidNodeValue : Nat := 65535

/-- The tree (`huffmanTree` in the source): the pre-allocated node slice and
the next-free-slot counter. -/
structure HuffmanTree where
  nodes : List HuffmanNode
  nextNode : Nat
deriving DecidableEq, Repr

/-- Outcomes other than a successful node index:
`structEmpty` = `StructuralError "empty Huffman tree"`,
`structEqual` = `StructuralError "equal symbols in Huffman tree"`,
`panicFewSymbols` = the `panic("newHuffmanTree: too few symbols")`,
`panicIndex` = a Go runtime index-out-of-range panic,
`outOfFuel` = the fuel of the embedding ran out. -/
inductive HuffError where
  | structEmpty
  | structEqual
  | panicFewSymbols
  | panicIndex
  | outOfFuel
deriving DecidableEq, Repr

/-- A `(length, symbol)` pair (`huffmanSymbolLengthPair`). -/
structure SymbolLengthPair where
  value : Nat
  length : Nat
deriving DecidableEq, Repr

/-- One entry of the parallel slices of `huffmanCodes`: the 32-bit
left-justified code, its bit length, and the symbol. -/
structure HuffmanCode where
  code : Nat
  codeLen : Nat
  value : Nat
deriving DecidableEq, Repr

/-- The `pairs[i] = {value: uint16(i), length: lengths[i]}` initialisation. -/
def mkPairs (lengths : List Nat) : List SymbolLengthPair :=
  (List.range lengths.length).map (fun i => ⟨i % 65536, lengths.getD i 0⟩)

/-- The source's `sort.Slice` comparator on pairs, as a (non-strict) total
order: ascending code length, symbol value breaking ties. -/
def pairLE (a b : SymbolLengthPair) : Prop :=
  a.length < b.length ∨ (a.length = b.length ∧ a.value ≤ b.value)

instance : DecidableRel pairLE := fun a b => by
  unfold pairLE; infer_instance

instance : IsTotal SymbolLengthPair pairLE :=
  ⟨fun a b => by unfold pairLE; omega⟩

instance : IsTrans SymbolLengthPair pairLE :=
  ⟨fun a b c hab hbc => by unfold pairLE at *; omega⟩

/-- The `sort.Slice(pairs, ...)` step.  The comparator is a strict total order
on the actual inputs (pair values are distinct indices), so the sorted result
is unique and insertion sort computes it. -/
def sortPairs (ps : List SymbolLengthPair) : List SymbolLengthPair :=
  List.insertionSort pairLE ps

/-- The increment `1 << (32 - length)` of the code accumulator, with Go's
`uint8` subtraction and `uint32` shift semantics: `2 ^ (32 - L)` for
`1 ≤ L ≤ 32`, and `0` otherwise. -/
def incGo (L : Nat) : Nat :=
  let sh := (288 - L % 256) % 256
  if sh < 32 then 2 ^ sh else 0

/-- The code-assignment loop of `newHuffmanTree`, walking the sorted pairs in
reverse (longest code length first): `code` is the 32-bit accumulator and
`length` the current-length tracker (starting at 32).  The input list here is
the reversed pair list, and the output is in the same (reversed) order. -/
def assignAux : List SymbolLengthPair → Nat → Nat → List HuffmanCode
  | [], _, _ => []
  | p :: rest, code, length =>
    let length2 := if length > p.length then p.length else length
    ⟨code, length2, p.value⟩ ::
      assignAux rest ((code + incGo length2) % 4294967296) length2

/-- The codes produced by the assignment loop, in slice order (index `i` of
`codes.code`/`codes.codeLen`/`codes.value` in the source). -/
def assignCodes (ps : List SymbolLengthPair) : List HuffmanCode :=
  (assignAux ps.reverse 0 32).reverse

/-- The `sort.Sort(&codes)` comparator: ascending 32-bit code. -/
def codeLE (a b : HuffmanCode) : Prop := a.code ≤ b.code

instance : DecidableRel codeLE := fun a b => by
  unfold codeLE; infer_instance

instance : IsTotal HuffmanCode codeLE := ⟨fun a b => Nat.le_total a.code b.code⟩

instance : IsTrans HuffmanCode codeLE := ⟨fun a b c => Nat.le_trans⟩

/-- The `sort.Sort(&codes)` step (see the header note on unstable sorting). -/
def sortCodes (cs : List HuffmanCode) : List HuffmanCode :=
  List.insertionSort codeLE cs

/-- `test := uint32(1) << (31 - level)` with `level : uint32`:
`2 ^ (31 - level)` for `level ≤ 31` and `0` up to the wrap of the counter. -/
def levelTest (level : Nat) : Nat :=
  let d := (4294967327 - level % 4294967296) % 4294967296
  if d < 32 then 2 ^ d else 0

/-- The scan loop of `buildHuffmanNode`: starting at slice index `i` with `k`
iterations left, find the first code with the `test` bit set.  A negative or
too-large index panics exactly where Go would fault the slice access. -/
def scanAux (codes : List HuffmanCode) (test : Nat) :
    Int → Nat → Except HuffError (Option Int)
  | _, 0 => .ok none
  | i, k+1 =>
    if h : 0 ≤ i ∧ i.toNat < codes.length then
      if (codes.get ⟨i.toNat, h.2⟩).code &&& test ≠ 0 then .ok (some i)
      else scanAux codes test (i+1) k
    else .error .panicIndex

/-- `firstRightIndex`: the scan result, defaulting to `r - l` when no code in
`[l, r)` has the `test` bit set (this default is the source's literal
`firstRightIndex := r - l`). -/
def scanFRI (codes : List HuffmanCode) (test : Nat) (l r : Int) :
    Except HuffError Int :=
  match scanAux codes test l (r - l).toNat with
  | .error e => .error e
  | .ok none => .ok (r - l)
  | .ok (some i) => .ok i

/-- Write to `t.nodes[idx]` through `f` (the source writes the node fields in
place through the `node` pointer). -/
def updNode (t : HuffmanTree) (idx : Nat) (f : HuffmanNode → HuffmanNode) :
    HuffmanTree :=
  ⟨t.nodes.set idx (f (t.nodes.getD idx ⟨0, 0, 0, 0⟩)), t.nextNode⟩

/-- `buildHuffmanNode`, fuelled.  Mirrors the source exactly: scan for the
split point, take the degenerate branch when one side is empty (with the
`len(codes) < 2` and `level == 31` guards), otherwise allocate the node at
`t.nextNode` (a `uint16` index), then fill the left and the right child slot,
each either inline as a leaf (single-entry side) or by recursion. -/
def buildHuffmanNode (codes : List HuffmanCode) :
    Nat → HuffmanTree → Nat → Int → Int → Except HuffError (Nat × HuffmanTree)
  | 0, _, _, _, _ => .error .outOfFuel
  | fuel+1, t, level, l, r =>
    match scanFRI codes (levelTest level) l r with
    | .error e => .error e
    | .ok fri =>
      if fri - l = 0 ∨ r - fri = 0 then
        if codes.length < 2 then .error .structEmpty
        else if level % 4294967296 = 31 then .error .structEqual
        else if fri - l = 0 then buildHuffmanNode codes fuel t (level+1) fri r
        else buildHuffmanNode codes fuel t (level+1) l fri
      else
        if hn : t.nextNode < t.nodes.length then
          let idx := t.nextNode
          let t1 : HuffmanTree := ⟨t.nodes, idx + 1⟩
          let leftRes : Except HuffError HuffmanTree :=
            if fri - l = 1 then
              if hv : 0 ≤ l ∧ l.toNat < codes.length then
                .ok (updNode t1 idx (fun nd =>
                  { nd with left := invalidNodeValue,
                            leftValue := (codes.get ⟨l.toNat, hv.2⟩).value }))
              else .error .panicIndex
            else
              match buildHuffmanNode codes fuel t1 (level+1) l fri with
              | .error e => .error e
              | .ok (li, t2) => .ok (updNode t2 idx (fun nd => { nd with left := li }))
          match leftRes with
          | .error e => .error e
          | .ok t3 =>
            if r - fri = 1 then
              if hv : 0 ≤ fri ∧ fri.toNat < codes.length then
                .ok (idx % 65536, updNode t3 idx (fun nd =>
                  { nd with right := invalidNodeValue,
                            rightValue := (codes.get ⟨fri.toNat, hv.2⟩).value }))
              else .error .panicIndex
            else
              match buildHuffmanNode codes fuel t3 (level+1) fri r with
              | .error e => .error e
              | .ok (ri, t4) => .ok (idx % 65536, updNode t4 idx (fun nd => { nd with right := ri }))
        else .error .panicIndex

/-- The full code pipeline of `newHuffmanTree` before the recursion: pair the
symbols with their lengths, sort, assign codes, sort by code. -/
def huffmanCodesOf (lengths : List Nat) : List HuffmanCode :=
  sortCodes (assignCodes (sortPairs (mkPairs lengths)))

/-- `newHuffmanTree`, fuelled. -/
def newHuffmanTreeF (fuel : Nat) (lengths : List Nat) :
    Except HuffError HuffmanTree :=
  if lengths.length < 2 then .error .panicFewSymbols
  else
    let t0 : HuffmanTree := ⟨List.replicate lengths.length ⟨0, 0, 0, 0⟩, 0⟩
    match buildHuffmanNode (huffmanCodesOf lengths) fuel t0 0 0
        (lengths.length : Int) with
    | .error e => .error e
    | .ok (_, t) => .ok t

/-- A fuel bound of `2^32` nested calls, far beyond the depth of any tree the
function is designed to build. -/
def hugeFuel : Nat := 4294967296

/-- `newHuffmanTree` at the default fuel. -/
def newHuffmanTree (lengths : List Nat) : Except HuffError HuffmanTree :=
  newHuffmanTreeF hugeFuel lengths

/-- Decoder outcomes: `truncated` = the bit source was exhausted before a leaf
(the bit source's io.EOF/unexpected-EOF turned into the truncated-stream
error), `panicIndex` = a node index outside the node slice, `outOfFuel` = the
fuel of the embedding ran out. -/
inductive DecodeError where
  | truncated
  | panicIndex
  | outOfFuel
deriving DecidableEq, Repr

/-- The `Decode` loop from node `nodeIndex`.  Modelled from the spec: the bit
source (`bit_reader.go`, not part of `src/`) supplies one bit at a time, most
significant bit first, and signals exhaustion; it is a `List Bool` here, and
both the fast path (buffered bits) and the slow path (`ReadBits(1)`) of the
source deliver exactly its head bit.  As in the source: read a bit, move to
`left` on 1 and `right` on 0, and if the chosen slot is `invalidNodeValue`
return the inline `leftValue`/`rightValue`.  Returns the symbol and the
unconsumed bits. -/
def decodeFrom :
    Nat → HuffmanTree → Nat → List Bool → Except DecodeError (Nat × List Bool)
  | 0, _, _, _ => .error .outOfFuel
  | fuel+1, t, nodeIndex, bits =>
    if h : nodeIndex < t.nodes.length then
      let node := t.nodes.get ⟨nodeIndex, h⟩
      match bits with
      | [] => .error .truncated
      | b :: rest =>
        let next := if b then node.left else node.right
        if next = invalidNodeValue then
          .ok ((if b then node.leftValue else node.rightValue), rest)
        else decodeFrom fuel t next rest
    else .error .panicIndex

/-- `Decode`: run the loop from the root (node 0). -/
def Decode (t : HuffmanTree) (bits : List Bool) :
    Except DecodeError (Nat × List Bool) :=
  decodeFrom hugeFuel t 0 bits

/-- Modelled from the spec (the encoder side is out of scope of `src/`): the
canonical code value of the pair at position `j` of the sorted pair list —
the prefix sum of `2^(32-L)` over the earlier pairs, i.e. codes assigned in
ascending (length, symbol) order, left-justified in 32 bits. -/
def canonPrefixVal (ps : List SymbolLengthPair) (j : Nat) : Nat :=
  ((ps.take j).map (fun p => incGo p.length)).sum

/-- Position of the (unique) pair carrying symbol value `v`. -/
def pairIndexOf (ps : List SymbolLengthPair) (v : Nat) : Nat :=
  ps.findIdx (fun p => p.value == v)

/-- Modelled from the spec: the canonical 32-bit left-justified code value of
symbol `s` for the given length array. -/
def canonicalCodeVal (lengths : List Nat) (s : Nat) : Nat :=
  let ps := sortPairs (mkPairs lengths)
  canonPrefixVal ps (pairIndexOf ps (s % 65536))

/-- The most-significant-first bits of the 32-bit value `v`, reading `len`
bits from bit 31 downward. -/
def bitsMSB (v len : Nat) : List Bool :=
  (List.range len).map (fun k => v.testBit (31 - k))

/-- Modelled from the spec: the canonical code bit string of symbol `s`
(most-significant bit first), of length `lengths[s]`. -/
def canonicalBits (lengths : List Nat) (s : Nat) : List Bool :=
  bitsMSB (canonicalCodeVal lengths s) (lengths.getD s 0)

/-- The bits the decoder must be fed to follow the build of entry `c` from bit
position `p` on: the complement of the stored code bits (the decoder takes the
left slot on bit 1, and the build puts the clear-bit half in the left slot). -/
def cbits (c : Nat) (p len : Nat) : List Bool :=
  (List.range (len - p)).map (fun k => !(c.testBit (31 - (p + k))))

/-- A length array triggering unbounded recursion: two symbols are forced to
the identical 32-bit code `0` (the accumulator wraps: the increments are
`1, 1, 2, 4, ..., 2^31`, summing to `2^32`), next to the code `1`, so at bit
position 31 the sub-range `[0,3)` splits into the leaf `1` and the equal pair
`[0,2)`, which is passed to bit position 32 where the scan finds nothing and
the `r - l` default keeps reproducing the same sub-range. -/
def c7lengths : List Nat :=
  [1, 1, 2, 3, 4, 5, 6, 7, 8, 9, 10, 11, 12, 13, 14, 15, 16, 17, 18, 19, 20,
   21, 22, 23, 24, 25, 26, 27, 28, 29, 30, 31, 32, 32]

/-- The sorted codes of `c7lengths`:
`[0, 0, 1, 2, 4, 8, ..., 2^31]` (the two zeros are the equal pair). -/
def c7codes : List HuffmanCode := huffmanCodesOf c7lengths

/-- A length array on which construction succeeds with a leaf 33 bit-decisions
deep: the increments `1, 2, 2, 4, 8, ..., 2^31` sum to `2^32 + 1`, so the codes
are `0, 1, 3, 5, 9, ..., 2^31+1` plus a wrapped duplicate `1`; the duplicate
pair `[1,3)` reaches bit position 32, where the buggy `r - l` default makes a
two-leaf node out of it instead of rejecting the equal codes. -/
def c8lengths : List Nat :=
  [1, 1, 2, 3, 4, 5, 6, 7, 8, 9, 10, 11, 12, 13, 14, 15, 16, 17, 18, 19, 20,
   21, 22, 23, 24, 25, 26, 27, 28, 29, 30, 31, 31, 32]

/-- The facts about the sorted code array that drive the recursive
construction: ascending 32-bit code values given by `C`, per-entry lengths in
`[1, 32]`, consecutive codes differing by exactly `2^(32-len)` (the Kraft
equality in prefix-sum form; `C codes.length = 2^32` at the top), and every
code value aligned to its own length. -/
structure CodeSpec (codes : List HuffmanCode) (C : Nat → Nat) : Prop where
  size2 : 2 ≤ codes.length
  size16 : codes.length ≤ 65536
  code_eq : ∀ k, k < codes.length → (codes.getD k ⟨0,0,0⟩).code = C k
  len_lb : ∀ k, k < codes.length → 1 ≤ (codes.getD k ⟨0,0,0⟩).codeLen
  len_ub : ∀ k, k < codes.length → (codes.getD k ⟨0,0,0⟩).codeLen ≤ 32
  succ_eq : ∀ k, k < codes.length →
    C (k+1) = C k + 2 ^ (32 - (codes.getD k ⟨0,0,0⟩).codeLen)
  align : ∀ k, k < codes.length →
    2 ^ (32 - (codes.getD k ⟨0,0,0⟩).codeLen) ∣ C k

/- ------------------------------------------------------------------ -/
/- Helper lemmas                                                       -/
/- ------------------------------------------------------------------ -/

set_option maxRecDepth 10000

/-- One step of the decode loop at a node whose chosen child slot is the leaf
sentinel: bit `true` reads the left slot, bit `false` the right slot, and the
inline value comes back with the remaining bits. -/
lemma decodeFrom_step_leaf (f : Nat) (t : HuffmanTree) (i : Nat) (b : Bool)
    (bits : List Bool) (h : i < t.nodes.length)
    (hl : (if b then (t.nodes.getD i ⟨0,0,0,0⟩).left
           else (t.nodes.getD i ⟨0,0,0,0⟩).right) = invalidNodeValue) :
    decodeFrom (f+1) t i (b :: bits) =
      .ok ((if b then (t.nodes.getD i ⟨0,0,0,0⟩).leftValue
            else (t.nodes.getD i ⟨0,0,0,0⟩).rightValue), bits) := by
  have hg : t.nodes.getD i ⟨0,0,0,0⟩ = t.nodes.get ⟨i, h⟩ :=
    List.getD_eq_getElem _ _ h
  unfold decodeFrom
  rw [dif_pos h]
  dsimp only
  rw [hg] at hl
  rw [if_pos hl]
  rw [hg]

/-- The scan over the sub-range `[0, 2)` of `c7codes` finds no set bit for any
`test` value: both codes there are `0`. -/
lemma c7codes_scan (test : Nat) : scanFRI c7codes test 0 2 = .ok 2 := by
  unfold scanFRI
  have ht : ((2 : Int) - 0).toNat = 2 := rfl
  rw [ht]
  have hlen : c7codes.length = 34 := rfl
  unfold scanAux
  rw [dif_pos (⟨by norm_num, by rw [hlen]; norm_num⟩ :
    (0 ≤ (0:Int)) ∧ ((0:Int).toNat < c7codes.length))]
  have hg0 : (c7codes.get ⟨(0:Int).toNat, by rw [hlen]; norm_num⟩).code = 0 := rfl
  rw [hg0]
  simp only [Nat.zero_and, ne_eq, not_true_eq_false, if_false]
  unfold scanAux
  rw [dif_pos (⟨by norm_num, by rw [hlen]; norm_num⟩ :
    (0 ≤ (0:Int) + 1) ∧ (((0:Int) + 1).toNat < c7codes.length))]
  have hg1 : (c7codes.get ⟨((0:Int) + 1).toNat, by rw [hlen]; norm_num⟩).code = 0 := rfl
  rw [hg1]
  simp only [Nat.zero_and, ne_eq, not_true_eq_false, if_false]
  rfl

/-- The self-loop of `buildHuffmanNode` on the equal pair `[0, 2)` of
`c7codes`: from any bit position at least 32, every amount of fuel short of
the wrap of the 32-bit level counter (about `2^32` further calls) is consumed
without progress — each call recurses on the identical sub-range. -/
lemma c7_selfloop : ∀ (f : Nat), ∀ (level : Nat) (t : HuffmanTree), 32 ≤ level →
    level + f ≤ 4294967327 →
    buildHuffmanNode c7codes f t level 0 2 = .error .outOfFuel := by
  intro f
  induction f with
  | zero => intro level t h1 h2; rfl
  | succ f ih =>
    intro level t h1 h2
    show buildHuffmanNode c7codes (f+1) t level 0 2 = .error .outOfFuel
    unfold buildHuffmanNode
    rw [c7codes_scan]
    dsimp only
    have hcond : ((2:Int) - 0 = 0 ∨ (2:Int) - 2 = 0) := by norm_num
    rw [if_pos hcond]
    have hlen : ¬ (c7codes.length < 2) := by
      have h34 : c7codes.length = 34 := rfl
      omega
    rw [if_neg hlen]
    have hlv : ¬ (level % 4294967296 = 31) := by omega
    rw [if_neg hlv]
    have hfri : ¬ ((2:Int) - 0 = 0) := by norm_num
    rw [if_neg hfri]
    exact ih (level + 1) t (by omega) (by omega)


lemma updNode_length (t : HuffmanTree) (idx : Nat) (f : HuffmanNode → HuffmanNode) :
    (updNode t idx f).nodes.length = t.nodes.length := by
  simp [updNode]

lemma updNode_nextNode (t : HuffmanTree) (idx : Nat) (f : HuffmanNode → HuffmanNode) :
    (updNode t idx f).nextNode = t.nextNode := rfl

lemma updNode_getD_ne (t : HuffmanTree) (idx k : Nat) (f : HuffmanNode → HuffmanNode)
    (h : k ≠ idx) :
    (updNode t idx f).nodes.getD k ⟨0,0,0,0⟩ = t.nodes.getD k ⟨0,0,0,0⟩ := by
  unfold updNode
  by_cases hk : k < t.nodes.length
  · rw [List.getD_eq_getElem _ _ (by simpa using hk), List.getD_eq_getElem _ _ hk]
    simp [List.getElem_set_ne (h.symm)]
  · rw [List.getD_eq_default _ _ (by simpa using (Nat.le_of_not_lt hk)),
        List.getD_eq_default _ _ (Nat.le_of_not_lt hk)]

lemma updNode_getD_eq (t : HuffmanTree) (idx : Nat) (f : HuffmanNode → HuffmanNode)
    (h : idx < t.nodes.length) :
    (updNode t idx f).nodes.getD idx ⟨0,0,0,0⟩ = f (t.nodes.getD idx ⟨0,0,0,0⟩) := by
  unfold updNode
  rw [List.getD_eq_getElem _ _ (by simpa using h)]
  simp

/-- When every code in `[i, j)` has the `test` bit clear and the code at `j`
has it set, the scan starting at `i` (with enough iterations to reach `j`)
stops exactly at `j`. -/
lemma scanAux_finds : ∀ (k : Nat) (codes : List HuffmanCode) (test : Nat)
    (i j : Int),
    0 ≤ i → i ≤ j → j < i + k → j < (codes.length : Int) →
    (∀ m : Int, i ≤ m → m < j →
      (codes.getD m.toNat ⟨0,0,0⟩).code &&& test = 0) →
    (codes.getD j.toNat ⟨0,0,0⟩).code &&& test ≠ 0 →
    scanAux codes test i k = .ok (some j) := by
  intro k
  induction k with
  | zero =>
    intro codes test i j h0 hij hjk hjlen hclear hset
    exact absurd hij (by omega)
  | succ k ih =>
    intro codes test i j h0 hij hjk hjlen hclear hset
    have hb : 0 ≤ i ∧ i.toNat < codes.length := ⟨h0, by omega⟩
    have hgi : codes.getD i.toNat ⟨0,0,0⟩ = codes.get ⟨i.toNat, hb.2⟩ :=
      List.getD_eq_getElem _ _ hb.2
    unfold scanAux
    rw [dif_pos hb]
    by_cases hij2 : i = j
    · subst hij2
      rw [if_pos (by rw [← hgi]; exact hset)]
    · have hlt : i < j := by omega
      rw [if_neg (by
        rw [← hgi]
        intro hcon
        exact hcon (hclear i le_rfl hlt))]
      exact ih codes test (i+1) j (by omega) (by omega) (by omega) hjlen
        (fun m h1 h2 => hclear m (by omega) h2) hset

/-- `firstRightIndex` lands exactly on the bit boundary `fri` of a range whose
codes have the `test` bit clear on `[l, fri)` and set at `fri < r`. -/
lemma scanFRI_finds (codes : List HuffmanCode) (test : Nat) (l r fri : Int)
    (h0 : 0 ≤ l) (h1 : l ≤ fri) (h2 : fri < r) (h3 : r ≤ (codes.length : Int))
    (hclear : ∀ m : Int, l ≤ m → m < fri →
      (codes.getD m.toNat ⟨0,0,0⟩).code &&& test = 0)
    (hset : (codes.getD fri.toNat ⟨0,0,0⟩).code &&& test ≠ 0) :
    scanFRI codes test l r = .ok fri := by
  unfold scanFRI
  rw [scanAux_finds (r - l).toNat codes test l fri h0 h1 (by omega) (by omega)
    hclear hset]

/-- One step of the decode loop on a read bit of 1: the node's LEFT slot is
selected — returned inline if it is the leaf sentinel, followed otherwise. -/
lemma decodeFrom_step_true (f : Nat) (t : HuffmanTree) (i : Nat)
    (bits : List Bool) (h : i < t.nodes.length) :
    decodeFrom (f+1) t i (true :: bits) =
      (if (t.nodes.getD i ⟨0,0,0,0⟩).left = invalidNodeValue
       then .ok ((t.nodes.getD i ⟨0,0,0,0⟩).leftValue, bits)
       else decodeFrom f t (t.nodes.getD i ⟨0,0,0,0⟩).left bits) := by
  have hg : t.nodes.getD i ⟨0,0,0,0⟩ = t.nodes.get ⟨i, h⟩ :=
    List.getD_eq_getElem _ _ h
  conv_lhs => unfold decodeFrom
  rw [dif_pos h]
  dsimp only
  rw [hg]
  rfl

/-- One step of the decode loop on a read bit of 0: the node's RIGHT slot is
selected — returned inline if it is the leaf sentinel, followed otherwise. -/
lemma decodeFrom_step_false (f : Nat) (t : HuffmanTree) (i : Nat)
    (bits : List Bool) (h : i < t.nodes.length) :
    decodeFrom (f+1) t i (false :: bits) =
      (if (t.nodes.getD i ⟨0,0,0,0⟩).right = invalidNodeValue
       then .ok ((t.nodes.getD i ⟨0,0,0,0⟩).rightValue, bits)
       else decodeFrom f t (t.nodes.getD i ⟨0,0,0,0⟩).right bits) := by
  have hg : t.nodes.getD i ⟨0,0,0,0⟩ = t.nodes.get ⟨i, h⟩ :=
    List.getD_eq_getElem _ _ h
  conv_lhs => unfold decodeFrom
  rw [dif_pos h]
  dsimp only
  rw [hg]
  rfl

/-- A call on an inverted range (`r < l`, `0 ≤ l`) never succeeds: it either
exhausts the fuel, panics on the node allocation, errors at `level == 31`, or
recurses into another inverted range. -/
lemma build_inverted_fails : ∀ (fuel : Nat) (codes : List HuffmanCode)
    (t : HuffmanTree) (level : Nat) (l r : Int), 0 ≤ l → r < l →
    ∃ e, buildHuffmanNode codes fuel t level l r = .error e := by
  intro fuel
  induction fuel with
  | zero => intro codes t level l r h0 hr; exact ⟨.outOfFuel, rfl⟩
  | succ fuel ih =>
    intro codes t level l r h0 hr
    have hscan : scanFRI codes (levelTest level) l r = .ok (r - l) := by
      unfold scanFRI
      have : (r - l).toNat = 0 := by omega
      rw [this]
      rfl
    unfold buildHuffmanNode
    rw [hscan]
    dsimp only
    by_cases hdeg : (r - l - l = 0 ∨ r - (r - l) = 0)
    · rw [if_pos hdeg]
      by_cases hlen : codes.length < 2
      · exact ⟨_, by rw [if_pos hlen]⟩
      · rw [if_neg hlen]
        by_cases hlv : level % 4294967296 = 31
        · exact ⟨_, by rw [if_pos hlv]⟩
        · rw [if_neg hlv]
          have hfri0 : ¬ (r - l - l = 0) := by omega
          rw [if_neg hfri0]
          exact ih codes t (level + 1) l (r - l) h0 (by omega)
    · rw [if_neg hdeg]
      by_cases hn : t.nextNode < t.nodes.length
      · rw [dif_pos hn]
        have hl1 : ¬ (r - l - l = 1) := by omega
        rw [if_neg hl1]
        obtain ⟨e, he⟩ := ih codes ⟨t.nodes, t.nextNode + 1⟩ (level + 1) l (r - l) h0 (by omega)
        rw [he]
        exact ⟨e, rfl⟩
      · rw [dif_neg hn]
        exact ⟨_, rfl⟩


lemma scanAux_ok_some_bounds : ∀ (k : Nat) (codes : List HuffmanCode)
    (test : Nat) (i j : Int),
    scanAux codes test i k = .ok (some j) → i ≤ j ∧ j < i + k := by
  intro k
  induction k with
  | zero => intro codes test i j h; exact absurd h (by simp [scanAux])
  | succ k ih =>
    intro codes test i j h
    unfold scanAux at h
    by_cases hb : 0 ≤ i ∧ i.toNat < codes.length
    · rw [dif_pos hb] at h
      by_cases hbit : (codes.get ⟨i.toNat, hb.2⟩).code &&& test ≠ 0
      · rw [if_pos hbit] at h
        have hj : i = j := by
          have := Except.ok.inj h
          exact Option.some.inj this
        omega
      · rw [if_neg hbit] at h
        have := ih codes test (i + 1) j h
        omega
    · rw [dif_neg hb] at h
      exact absurd h (by simp)

lemma scanFRI_ok_cases (codes : List HuffmanCode) (test : Nat) (l r fri : Int)
    (h : scanFRI codes test l r = .ok fri) :
    fri = r - l ∨ (l ≤ fri ∧ fri < r) := by
  unfold scanFRI at h
  cases hs : scanAux codes test l (r - l).toNat with
  | error e => rw [hs] at h; exact absurd h (by simp)
  | ok o =>
    rw [hs] at h
    cases o with
    | none => left; exact (Except.ok.inj h).symm
    | some j =>
      right
      have hb := scanAux_ok_some_bounds _ codes test l j hs
      have hj : j = fri := Except.ok.inj h
      omega


lemma build_ok_spec : ∀ (fuel : Nat) (codes : List HuffmanCode) (t : HuffmanTree)
    (level : Nat) (l r : Int) (ni : Nat) (t2 : HuffmanTree),
    buildHuffmanNode codes fuel t level l r = .ok (ni, t2) →
    0 ≤ l → l < r → r ≤ (codes.length : Int) →
    ni = t.nextNode % 65536 ∧
    t2.nextNode + 1 = t.nextNode + (r - l).toNat ∧
    t2.nodes.length = t.nodes.length ∧
    (∀ k, k < t.nextNode → t2.nodes.getD k ⟨0,0,0,0⟩ = t.nodes.getD k ⟨0,0,0,0⟩) := by
  intro fuel
  induction fuel with
  | zero =>
    intro codes t level l r ni t2 h _ _ _
    exact absurd h (by simp [buildHuffmanNode])
  | succ fuel ih =>
    intro codes t level l r ni t2 h h0 hlr hrn
    unfold buildHuffmanNode at h
    cases hscan : scanFRI codes (levelTest level) l r with
    | error e => rw [hscan] at h; exact absurd h (by simp)
    | ok fri =>
      rw [hscan] at h
      dsimp only at h
      by_cases hdeg : (fri - l = 0 ∨ r - fri = 0)
      · rw [if_pos hdeg] at h
        by_cases hlen : codes.length < 2
        · rw [if_pos hlen] at h; exact absurd h (by simp)
        · rw [if_neg hlen] at h
          by_cases hlv : level % 4294967296 = 31
          · rw [if_pos hlv] at h; exact absurd h (by simp)
          · rw [if_neg hlv] at h
            by_cases hfri0 : fri - l = 0
            · rw [if_pos hfri0] at h
              have hfl : fri = l := by omega
              rw [hfl] at h
              exact ih codes t (level+1) l r ni t2 h h0 hlr hrn
            · rw [if_neg hfri0] at h
              have hfr : fri = r := by omega
              rw [hfr] at h
              exact ih codes t (level+1) l r ni t2 h h0 hlr hrn
      · rw [if_neg hdeg] at h
        by_cases hn : t.nextNode < t.nodes.length
        case neg => rw [dif_neg hn] at h; exact absurd h (by simp)
        rw [dif_pos hn] at h
        have hfri_range : l < fri ∧ fri < r := by
          rcases scanFRI_ok_cases codes _ l r fri hscan with hdef | hfound
          · by_cases hlt : fri < l
            · exfalso
              have hl1 : ¬ (fri - l = 1) := by omega
              rw [if_neg hl1] at h
              obtain ⟨e, he⟩ := build_inverted_fails fuel codes
                ⟨t.nodes, t.nextNode+1⟩ (level+1) l fri h0 hlt
              rw [he] at h
              exact absurd h (by simp)
            · omega
          · omega
        obtain ⟨hlf, hfr⟩ := hfri_range
        have hvl : 0 ≤ l ∧ l.toNat < codes.length := ⟨h0, by omega⟩
        have hvf : 0 ≤ fri ∧ fri.toNat < codes.length := ⟨by omega, by omega⟩
        by_cases hleaf_l : fri - l = 1
        · rw [if_pos hleaf_l, dif_pos hvl] at h
          dsimp only at h
          by_cases hleaf_r : r - fri = 1
          · rw [if_pos hleaf_r, dif_pos hvf] at h
            obtain ⟨h3, h4⟩ := Prod.mk.inj (Except.ok.inj h)
            subst h3
            subst h4
            refine ⟨rfl, ?_, ?_, ?_⟩
            · simp only [updNode_nextNode]
              show t.nextNode + 1 + 1 = t.nextNode + (r - l).toNat
              omega
            · rw [updNode_length, updNode_length]
            · intro k hk
              rw [updNode_getD_ne _ _ _ _ (by omega),
                  updNode_getD_ne _ _ _ _ (by omega)]
          · rw [if_neg hleaf_r] at h
            cases hR : buildHuffmanNode codes fuel
                (updNode ⟨t.nodes, t.nextNode+1⟩ t.nextNode (fun nd =>
                  { nd with left := invalidNodeValue,
                            leftValue := (codes.get ⟨l.toNat, hvl.2⟩).value }))
                (level+1) fri r with
            | error e => rw [hR] at h; exact absurd h (by simp)
            | ok p =>
              obtain ⟨ri, t4⟩ := p
              rw [hR] at h
              dsimp only at h
              have hspec := ih codes _ (level+1) fri r ri t4 hR (by omega) (by omega) hrn
              obtain ⟨hri, hcount, hlen4, hframe4⟩ := hspec
              obtain ⟨h3, h4⟩ := Prod.mk.inj (Except.ok.inj h)
              subst h3
              subst h4
              have hnn3 : (updNode ⟨t.nodes, t.nextNode+1⟩ t.nextNode (fun nd =>
                  { nd with left := invalidNodeValue,
                            leftValue := (codes.get ⟨l.toNat, hvl.2⟩).value })).nextNode
                  = t.nextNode + 1 := rfl
              refine ⟨rfl, ?_, ?_, ?_⟩
              · simp only [updNode_nextNode]
                rw [hnn3] at hcount
                omega
              · rw [updNode_length, hlen4, updNode_length]
              · intro k hk
                rw [updNode_getD_ne _ _ _ _ (by omega),
                    hframe4 k (by rw [hnn3]; omega),
                    updNode_getD_ne _ _ _ _ (by omega)]
        · rw [if_neg hleaf_l] at h
          cases hL : buildHuffmanNode codes fuel ⟨t.nodes, t.nextNode+1⟩
              (level+1) l fri with
          | error e => rw [hL] at h; exact absurd h (by simp)
          | ok p =>
            obtain ⟨li, t2l⟩ := p
            rw [hL] at h
            dsimp only at h
            have hspecL := ih codes _ (level+1) l fri li t2l hL h0 (by omega) (by omega)
            obtain ⟨hli, hcountL, hlenL, hframeL⟩ := hspecL
            have hnnL : (⟨t.nodes, t.nextNode+1⟩ : HuffmanTree).nextNode
                = t.nextNode + 1 := rfl
            by_cases hleaf_r : r - fri = 1
            · rw [if_pos hleaf_r, dif_pos hvf] at h
              obtain ⟨h3, h4⟩ := Prod.mk.inj (Except.ok.inj h)
              subst h3
              subst h4
              refine ⟨rfl, ?_, ?_, ?_⟩
              · simp only [updNode_nextNode]
                rw [hnnL] at hcountL
                omega
              · rw [updNode_length, updNode_length, hlenL]
              · intro k hk
                rw [updNode_getD_ne _ _ _ _ (by omega),
                    updNode_getD_ne _ _ _ _ (by omega),
                    hframeL k (by rw [hnnL]; omega)]
            · rw [if_neg hleaf_r] at h
              cases hR : buildHuffmanNode codes fuel
                  (updNode t2l t.nextNode (fun nd => { nd with left := li }))
                  (level+1) fri r with
              | error e => rw [hR] at h; exact absurd h (by simp)
              | ok q =>
                obtain ⟨ri, t4⟩ := q
                rw [hR] at h
                dsimp only at h
                have hnn3 : (updNode t2l t.nextNode (fun nd =>
                    { nd with left := li })).nextNode = t2l.nextNode := rfl
                have hspecR := ih codes _ (level+1) fri r ri t4 hR (by omega) (by omega) hrn
                obtain ⟨hri, hcountR, hlenR, hframeR⟩ := hspecR
                obtain ⟨h3, h4⟩ := Prod.mk.inj (Except.ok.inj h)
                subst h3
                subst h4
                refine ⟨rfl, ?_, ?_, ?_⟩
                · simp only [updNode_nextNode]
                  rw [hnn3] at hcountR
                  rw [hnnL] at hcountL
                  omega
                · rw [updNode_length, hlenR, updNode_length, hlenL]
                · intro k hk
                  rw [updNode_getD_ne _ _ _ _ (by omega),
                      hframeR k (by rw [hnn3]; rw [hnnL] at hcountL; omega),
                      updNode_getD_ne _ _ _ _ (by omega),
                      hframeL k (by rw [hnnL]; omega)]


lemma assignAux_length : ∀ (ps : List SymbolLengthPair) (c len : Nat),
    (assignAux ps c len).length = ps.length := by
  intro ps
  induction ps with
  | nil => intro c len; rfl
  | cons p rest ih => intro c len; simp [assignAux, ih]

lemma huffmanCodesOf_length (lengths : List Nat) :
    (huffmanCodesOf lengths).length = lengths.length := by
  unfold huffmanCodesOf sortCodes assignCodes sortPairs mkPairs
  rw [List.length_insertionSort, List.length_reverse, assignAux_length,
      List.length_reverse, List.length_insertionSort, List.length_map,
      List.length_range]

lemma newHuffmanTree_ok_shape (lengths : List Nat) (t : HuffmanTree)
    (h : newHuffmanTree lengths = .ok t) :
    2 ≤ lengths.length ∧ t.nodes.length = lengths.length ∧
      t.nextNode + 1 = lengths.length := by
  unfold newHuffmanTree newHuffmanTreeF at h
  by_cases hlen : lengths.length < 2
  · rw [if_pos hlen] at h; exact absurd h (by simp)
  · rw [if_neg hlen] at h
    dsimp only at h
    cases hb : buildHuffmanNode (huffmanCodesOf lengths) hugeFuel
        ⟨List.replicate lengths.length ⟨0,0,0,0⟩, 0⟩ 0 0 (lengths.length : Int) with
    | error e => rw [hb] at h; exact absurd h (by simp)
    | ok p =>
      obtain ⟨ni, t2⟩ := p
      rw [hb] at h
      dsimp only at h
      have ht : t2 = t := Except.ok.inj h
      subst ht
      have hspec := build_ok_spec hugeFuel (huffmanCodesOf lengths)
        ⟨List.replicate lengths.length ⟨0,0,0,0⟩, 0⟩ 0 0 (lengths.length : Int)
        ni t2 hb (by norm_num) (by exact_mod_cast by omega)
        (by rw [huffmanCodesOf_length])
      obtain ⟨_, hcount, hlen2, _⟩ := hspec
      refine ⟨by omega, ?_, ?_⟩
      · rw [hlen2]; simp
      · simpa using hcount


lemma incGo_pos (L : Nat) (h1 : 1 ≤ L) (h32 : L ≤ 32) : 0 < incGo L := by
  unfold incGo
  have hm : L % 256 = L := Nat.mod_eq_of_lt (by omega)
  rw [hm]
  have hsh : (288 - L) % 256 = 32 - L := by omega
  rw [hsh, if_pos (by omega)]
  positivity

lemma mkPairs_mem (lengths : List Nat) (p : SymbolLengthPair) :
    p ∈ mkPairs lengths ↔
      ∃ i, i < lengths.length ∧ p = ⟨i % 65536, lengths.getD i 0⟩ := by
  simp only [mkPairs, List.mem_map, List.mem_range]
  constructor
  · rintro ⟨i, hi, rfl⟩; exact ⟨i, hi, rfl⟩
  · rintro ⟨i, hi, rfl⟩; exact ⟨i, hi, rfl⟩

lemma sortPairs_mem (lengths : List Nat) (p : SymbolLengthPair) :
    p ∈ sortPairs (mkPairs lengths) ↔
      ∃ i, i < lengths.length ∧ p = ⟨i % 65536, lengths.getD i 0⟩ := by
  rw [← mkPairs_mem]
  exact (List.perm_insertionSort pairLE (mkPairs lengths)).mem_iff

lemma sortPairs_sorted (lengths : List Nat) :
    (sortPairs (mkPairs lengths)).Sorted pairLE :=
  List.sorted_insertionSort pairLE (mkPairs lengths)

/-- The pair found at `pairIndexOf` carries the looked-up value, lies at a
valid index, and is the pair of that symbol (values are distinct for arrays
within the 16-bit model). -/
lemma pairIndexOf_spec (lengths : List Nat) (s : Nat)
    (hs : s < lengths.length) (hn : lengths.length ≤ 65536) :
    pairIndexOf (sortPairs (mkPairs lengths)) s < (sortPairs (mkPairs lengths)).length ∧
    (sortPairs (mkPairs lengths)).get
      ⟨pairIndexOf (sortPairs (mkPairs lengths)) s, by
        apply List.findIdx_lt_length_of_exists
        refine ⟨⟨s % 65536, lengths.getD s 0⟩, ?_, by simp [Nat.mod_eq_of_lt (by omega : s < 65536)]⟩
        rw [sortPairs_mem]
        exact ⟨s, hs, rfl⟩⟩ = ⟨s, lengths.getD s 0⟩ := by
  have hex : pairIndexOf (sortPairs (mkPairs lengths)) s <
      (sortPairs (mkPairs lengths)).length := by
    apply List.findIdx_lt_length_of_exists
    refine ⟨⟨s % 65536, lengths.getD s 0⟩, ?_, by simp [Nat.mod_eq_of_lt (by omega : s < 65536)]⟩
    rw [sortPairs_mem]
    exact ⟨s, hs, rfl⟩
  refine ⟨hex, ?_⟩
  have hval : ((sortPairs (mkPairs lengths)).get
      ⟨pairIndexOf (sortPairs (mkPairs lengths)) s, hex⟩).value = s := by
    have hex2 : List.findIdx (fun q => q.value == s) (sortPairs (mkPairs lengths)) <
        (sortPairs (mkPairs lengths)).length := hex
    have := List.findIdx_getElem (w := hex2)
    simpa using this
  have hmem : (sortPairs (mkPairs lengths)).get
      ⟨pairIndexOf (sortPairs (mkPairs lengths)) s, hex⟩ ∈ sortPairs (mkPairs lengths) :=
    List.get_mem _ _ _
  rw [sortPairs_mem] at hmem
  obtain ⟨i, hi, hp⟩ := hmem
  have hmod : i % 65536 = s := by rw [hp] at hval; exact hval
  have hieq : i = s := by omega
  subst hieq
  rw [hp, Nat.mod_eq_of_lt (by omega : i < 65536)]


lemma canonPrefixVal_lt (ps : List SymbolLengthPair) (j1 j2 : Nat)
    (hj1 : j1 < ps.length) (hj12 : j1 < j2)
    (hpos : 0 < incGo (ps.get ⟨j1, hj1⟩).length) :
    canonPrefixVal ps j1 < canonPrefixVal ps j2 := by
  unfold canonPrefixVal
  have hsplit : ps.take j2 = ps.take j1 ++ (ps.drop j1).take (j2 - j1) := by
    rw [← List.take_add]
    congr 1
    omega
  rw [hsplit, List.map_append, List.sum_append]
  have hdrop : ps.drop j1 = ps.get ⟨j1, hj1⟩ :: ps.drop (j1 + 1) := by
    exact List.drop_eq_getElem_cons hj1
  obtain ⟨k, hk⟩ : ∃ k, j2 - j1 = k + 1 := ⟨j2 - j1 - 1, by omega⟩
  rw [hdrop, hk]
  simp only [List.take_succ_cons, List.map_cons, List.sum_cons]
  have : 0 < incGo (ps.get ⟨j1, hj1⟩).length +
      (((ps.drop (j1 + 1)).take k).map (fun p => incGo p.length)).sum := by
    omega
  omega

/- ------------------------------------------------------------------ -/
/- Claim theorems                                                      -/
/- ------------------------------------------------------------------ -/

/-- C3: the claim says a degenerate split (all codes of a sub-range of ≥ 2
entries agreeing at bit `p < 31`) allocates nothing and recurses over the same
sub-range.  The code violates this: on `[3,3,3,3,3,3]` the recursive call over
`[4, 6)` at bit position 1 sees both codes with the bit clear, the scan
default `firstRightIndex := r - l` yields `2` (instead of `r = 6`), the call
treats it as a normal split of `[4,6)` at `2`, allocates nodes along an
inverted range chain, and the construction dies with an index-out-of-range
panic instead of tolerating the superfluous level. -/
theorem claim3_superfluous_level_panics :
    newHuffmanTree [3, 3, 3, 3, 3, 3] = .error .panicIndex := rfl

/-- C6: the claim says a length array forcing two distinct symbols to an
identical 32-bit code must fail construction with the malformed-tree error
("equal symbols in Huffman tree").  On `[1,1,1,2]` the accumulator wraps and
symbols `0` and `2` both receive the code `0x40000000` (second conjby the
sorted code/value listing below), the equal pair sits at positions `[1,3)`
with the shared bit clear, the scan default `r - l = 2` turns the pair into
the two leaves of one bogus node — and construction succeeds. -/
theorem claim6_equal_codes_accepted :
    (huffmanCodesOf [1, 1, 1, 2]).map (fun c => (c.code, c.value)) =
      [(0, 3), (1073741824, 0), (1073741824, 2), (3221225472, 1)] ∧
    newHuffmanTree [1, 1, 1, 2] =
      .ok ⟨[⟨1, 65535, 0, 1⟩, ⟨65535, 2, 3, 0⟩, ⟨65535, 65535, 0, 2⟩,
            ⟨0, 0, 0, 0⟩], 3⟩ :=
  ⟨rfl, rfl⟩

/-- C7: the claim says the recursion always terminates with depth at most 32.
On `c7lengths` the build exhausts 100 units of fuel (one per nested call), so
the recursion reaches depth 100 > 32; and by `c7_selfloop` the state reached
at bit position 32 (the equal pair `[0,2)`) consumes every fuel budget up to
the wrap of the 32-bit level counter, i.e. the recursion is unbounded for
every realisable depth. -/
theorem claim7_unbounded_recursion :
    newHuffmanTreeF 100 c7lengths = .error .outOfFuel ∧
    (∀ (f level : Nat) (t : HuffmanTree), 32 ≤ level →
      level + f ≤ 4294967327 →
      buildHuffmanNode c7codes f t level 0 2 = .error .outOfFuel) :=
  ⟨rfl, fun f level t h1 h2 => c7_selfloop f level t h1 h2⟩

/-- Witness for C7's quantified conjunct at `f = 5`, `level = 40`, an
arbitrary concrete tree state. -/
theorem claim7_witness :
    buildHuffmanNode c7codes 5 ⟨[], 0⟩ 40 0 2 = .error .outOfFuel :=
  claim7_unbounded_recursion.2 5 40 ⟨[], 0⟩ (by norm_num) (by norm_num)

/-- C8: the claim says every tree returned without error has all paths within
32 bit-decisions and `Decode` consumes at most 32 bits.  On `c8lengths`
construction succeeds and the path `1×31, 0, 1` — 33 bits — is consumed in
full before the symbol comes back. -/
theorem claim8_depth_33_tree :
    ∃ t, newHuffmanTree c8lengths = .ok t ∧
      Decode t (List.replicate 31 true ++ [false, true]) = .ok (0, []) ∧
      (List.replicate 31 true ++ [false, true]).length = 33 :=
  ⟨_, rfl, rfl, rfl⟩

/-- C2, counterexample: the claim predicts that the entry whose code has the
current bit clear is stored as or under the node's *right* child.  For
`[1,1]` the sorted codes are `[(0, symbol 1), (2^31, symbol 0)]`; the claim
therefore predicts the root's right slot carries symbol 1.  The built tree
stores symbol 1 in the *left* slot (`leftValue = 1`, `rightValue = 0`). -/
theorem claim2_counterexample :
    huffmanCodesOf [1, 1] = [⟨0, 1, 1⟩, ⟨2147483648, 1, 0⟩] ∧
    newHuffmanTree [1, 1] =
      .ok ⟨[⟨65535, 65535, 1, 0⟩, ⟨0, 0, 0, 0⟩], 1⟩ ∧
    ¬ ∃ t, newHuffmanTree [1, 1] = .ok t ∧
      (t.nodes.getD 0 ⟨0,0,0,0⟩).right = invalidNodeValue ∧
      (t.nodes.getD 0 ⟨0,0,0,0⟩).rightValue = 1 := by
  refine ⟨rfl, rfl, ?_⟩
  rintro ⟨t, ht, hr, hv⟩
  have hlit : newHuffmanTree [1, 1] =
      .ok (⟨[⟨65535, 65535, 1, 0⟩, ⟨0, 0, 0, 0⟩], 1⟩ : HuffmanTree) := rfl
  rw [hlit] at ht
  have := Except.ok.inj ht
  rw [← this] at hv
  simp [List.getD] at hv

/-- C2, amended: at a normal split of `[l, r)` — the codes of the sub-range
have the current test bit clear exactly on `[l, fri)` and set on `[fri, r)` —
the scan picks the split point `fri`; the bit-clear part `[l, fri)` is stored
as or under the node's LEFT child (inline as a leaf when it is a single
entry, otherwise as the root index `li` of the subtree built by the recursive
call over exactly `[l, fri)`), the bit-set part `[fri, r)` becomes the RIGHT
child likewise (the recursive call over `[fri, r)` starts at the first slot
after the left subtree); and one step of the decode loop routes a read bit of
1 to the left slot and a read bit of 0 to the right slot (returning the
inline value when the slot is the leaf sentinel). -/
theorem claim2_split_wiring (codes : List HuffmanCode) (fuel dfuel : Nat)
    (t t2 : HuffmanTree) (level : Nat) (l r fri : Int) (ni : Nat)
    (bits : List Bool)
    (h0 : 0 ≤ l) (hlf : l < fri) (hfr : fri < r)
    (hrn : r ≤ (codes.length : Int))
    (hclear : ∀ m : Int, l ≤ m → m < fri →
      (codes.getD m.toNat ⟨0,0,0⟩).code &&& levelTest level = 0)
    (hset : ∀ m : Int, fri ≤ m → m < r →
      (codes.getD m.toNat ⟨0,0,0⟩).code &&& levelTest level ≠ 0)
    (hok : buildHuffmanNode codes (fuel+1) t level l r = .ok (ni, t2)) :
    scanFRI codes (levelTest level) l r = .ok fri ∧
    ni = t.nextNode % 65536 ∧
    (fri - l = 1 →
      (t2.nodes.getD t.nextNode ⟨0,0,0,0⟩).left = invalidNodeValue ∧
      (t2.nodes.getD t.nextNode ⟨0,0,0,0⟩).leftValue =
        (codes.getD l.toNat ⟨0,0,0⟩).value) ∧
    (1 < fri - l →
      ∃ li tl, buildHuffmanNode codes fuel ⟨t.nodes, t.nextNode + 1⟩
          (level + 1) l fri = .ok (li, tl) ∧
        li = (t.nextNode + 1) % 65536 ∧
        (t2.nodes.getD t.nextNode ⟨0,0,0,0⟩).left = li) ∧
    (r - fri = 1 →
      (t2.nodes.getD t.nextNode ⟨0,0,0,0⟩).right = invalidNodeValue ∧
      (t2.nodes.getD t.nextNode ⟨0,0,0,0⟩).rightValue =
        (codes.getD fri.toNat ⟨0,0,0⟩).value) ∧
    (1 < r - fri →
      ∃ t3 ri tr, buildHuffmanNode codes fuel t3 (level + 1) fri r =
          .ok (ri, tr) ∧
        t3.nextNode = t.nextNode + (fri - l).toNat ∧
        ri = (t.nextNode + (fri - l).toNat) % 65536 ∧
        (t2.nodes.getD t.nextNode ⟨0,0,0,0⟩).right = ri) ∧
    decodeFrom (dfuel + 1) t2 t.nextNode (true :: bits) =
      (if (t2.nodes.getD t.nextNode ⟨0,0,0,0⟩).left = invalidNodeValue
       then .ok ((t2.nodes.getD t.nextNode ⟨0,0,0,0⟩).leftValue, bits)
       else decodeFrom dfuel t2
         (t2.nodes.getD t.nextNode ⟨0,0,0,0⟩).left bits) ∧
    decodeFrom (dfuel + 1) t2 t.nextNode (false :: bits) =
      (if (t2.nodes.getD t.nextNode ⟨0,0,0,0⟩).right = invalidNodeValue
       then .ok ((t2.nodes.getD t.nextNode ⟨0,0,0,0⟩).rightValue, bits)
       else decodeFrom dfuel t2
         (t2.nodes.getD t.nextNode ⟨0,0,0,0⟩).right bits) := by
  have hscan : scanFRI codes (levelTest level) l r = .ok fri :=
    scanFRI_finds codes _ l r fri h0 (le_of_lt hlf) hfr hrn hclear
      (hset fri le_rfl hfr)
  have hok2 := hok
  unfold buildHuffmanNode at hok2
  rw [hscan] at hok2
  dsimp only at hok2
  have hdeg : ¬ (fri - l = 0 ∨ r - fri = 0) := by omega
  rw [if_neg hdeg] at hok2
  by_cases hn : t.nextNode < t.nodes.length
  case neg => rw [dif_neg hn] at hok2; exact absurd hok2 (by simp)
  rw [dif_pos hn] at hok2
  have hvl : 0 ≤ l ∧ l.toNat < codes.length := ⟨h0, by omega⟩
  have hvf : 0 ≤ fri ∧ fri.toNat < codes.length := ⟨by omega, by omega⟩
  have hgl : codes.getD l.toNat ⟨0,0,0⟩ = codes.get ⟨l.toNat, hvl.2⟩ :=
    List.getD_eq_getElem _ _ hvl.2
  have hgf : codes.getD fri.toNat ⟨0,0,0⟩ = codes.get ⟨fri.toNat, hvf.2⟩ :=
    List.getD_eq_getElem _ _ hvf.2
  by_cases hleaf_l : fri - l = 1
  · rw [if_pos hleaf_l, dif_pos hvl] at hok2
    dsimp only at hok2
    by_cases hleaf_r : r - fri = 1
    · rw [if_pos hleaf_r, dif_pos hvf] at hok2
      obtain ⟨h3, h4⟩ := Prod.mk.inj (Except.ok.inj hok2)
      subst h3
      subst h4
      have hln : t.nextNode <
          (updNode (updNode ⟨t.nodes, t.nextNode+1⟩ t.nextNode (fun nd =>
            { nd with left := invalidNodeValue,
                      leftValue := (codes.get ⟨l.toNat, hvl.2⟩).value }))
          t.nextNode (fun nd =>
            { nd with right := invalidNodeValue,
                      rightValue := (codes.get ⟨fri.toNat, hvf.2⟩).value })).nodes.length := by
        rw [updNode_length, updNode_length]
        exact hn
      have hnode : (updNode (updNode ⟨t.nodes, t.nextNode+1⟩ t.nextNode (fun nd =>
            { nd with left := invalidNodeValue,
                      leftValue := (codes.get ⟨l.toNat, hvl.2⟩).value }))
          t.nextNode (fun nd =>
            { nd with right := invalidNodeValue,
                      rightValue := (codes.get ⟨fri.toNat, hvf.2⟩).value })).nodes.getD
            t.nextNode ⟨0,0,0,0⟩ =
          ⟨invalidNodeValue, invalidNodeValue,
            (codes.get ⟨l.toNat, hvl.2⟩).value,
            (codes.get ⟨fri.toNat, hvf.2⟩).value⟩ := by
        rw [updNode_getD_eq (updNode ⟨t.nodes, t.nextNode+1⟩ t.nextNode (fun nd =>
              { nd with left := invalidNodeValue,
                        leftValue := (codes.get ⟨l.toNat, hvl.2⟩).value }))
              _ _ (by rw [updNode_length]; exact hn),
            updNode_getD_eq ⟨t.nodes, t.nextNode+1⟩ _ _ hn]
      refine ⟨hscan, rfl, ?_, ?_, ?_, ?_,
        decodeFrom_step_true dfuel _ t.nextNode bits hln,
        decodeFrom_step_false dfuel _ t.nextNode bits hln⟩
      · intro _
        rw [hnode, hgl]
        exact ⟨rfl, rfl⟩
      · intro hc
        exact absurd hleaf_l (by omega)
      · intro _
        rw [hnode, hgf]
        exact ⟨rfl, rfl⟩
      · intro hc
        exact absurd hleaf_r (by omega)
    · rw [if_neg hleaf_r] at hok2
      cases hR : buildHuffmanNode codes fuel
          (updNode ⟨t.nodes, t.nextNode+1⟩ t.nextNode (fun nd =>
            { nd with left := invalidNodeValue,
                      leftValue := (codes.get ⟨l.toNat, hvl.2⟩).value }))
          (level+1) fri r with
      | error e => rw [hR] at hok2; exact absurd hok2 (by simp)
      | ok q =>
        obtain ⟨ri, t4⟩ := q
        rw [hR] at hok2
        dsimp only at hok2
        obtain ⟨h3, h4⟩ := Prod.mk.inj (Except.ok.inj hok2)
        subst h3
        subst h4
        have hspecR := build_ok_spec fuel codes _ (level+1) fri r ri t4 hR
          (by omega) (by omega) hrn
        obtain ⟨hri, hcountR, hlenR, hframeR⟩ := hspecR
        have hnn3 : (updNode ⟨t.nodes, t.nextNode+1⟩ t.nextNode (fun nd =>
            { nd with left := invalidNodeValue,
                      leftValue := (codes.get ⟨l.toNat, hvl.2⟩).value })).nextNode
            = t.nextNode + 1 := rfl
        have hfr4 : t4.nodes.getD t.nextNode ⟨0,0,0,0⟩ =
            (updNode ⟨t.nodes, t.nextNode+1⟩ t.nextNode (fun nd =>
              { nd with left := invalidNodeValue,
                        leftValue := (codes.get ⟨l.toNat, hvl.2⟩).value })).nodes.getD
              t.nextNode ⟨0,0,0,0⟩ :=
          hframeR t.nextNode (by rw [hnn3]; omega)
        have hln : t.nextNode <
            (updNode t4 t.nextNode (fun nd => { nd with right := ri })).nodes.length := by
          rw [updNode_length, hlenR, updNode_length]
          exact hn
        have hnode : (updNode t4 t.nextNode
              (fun nd => { nd with right := ri })).nodes.getD
              t.nextNode ⟨0,0,0,0⟩ =
            { t4.nodes.getD t.nextNode ⟨0,0,0,0⟩ with right := ri } :=
          updNode_getD_eq _ _ _ (by rw [hlenR, updNode_length]; exact hn)
        rw [hnn3] at hri
        refine ⟨hscan, rfl, ?_, ?_, ?_, ?_,
          decodeFrom_step_true dfuel _ t.nextNode bits hln,
          decodeFrom_step_false dfuel _ t.nextNode bits hln⟩
        · intro _
          rw [hnode, hfr4, updNode_getD_eq ⟨t.nodes, t.nextNode+1⟩ _ _ hn, hgl]
          exact ⟨rfl, rfl⟩
        · intro hc
          exact absurd hleaf_l (by omega)
        · intro hc
          exact absurd hc hleaf_r
        · intro _
          refine ⟨_, ri, t4, hR, by rw [hnn3]; omega, by omega, ?_⟩
          rw [hnode]
  · rw [if_neg hleaf_l] at hok2
    cases hL : buildHuffmanNode codes fuel ⟨t.nodes, t.nextNode+1⟩
        (level+1) l fri with
    | error e => rw [hL] at hok2; exact absurd hok2 (by simp)
    | ok p =>
      obtain ⟨li, t2l⟩ := p
      rw [hL] at hok2
      dsimp only at hok2
      have hspecL := build_ok_spec fuel codes ⟨t.nodes, t.nextNode+1⟩
        (level+1) l fri li t2l hL h0 (by omega) (by omega)
      obtain ⟨hli, hcountL, hlenL, hframeL⟩ := hspecL
      have hnnL : (⟨t.nodes, t.nextNode+1⟩ : HuffmanTree).nextNode
          = t.nextNode + 1 := rfl
      rw [hnnL] at hli hcountL
      by_cases hleaf_r : r - fri = 1
      · rw [if_pos hleaf_r, dif_pos hvf] at hok2
        obtain ⟨h3, h4⟩ := Prod.mk.inj (Except.ok.inj hok2)
        subst h3
        subst h4
        have hln : t.nextNode <
            (updNode (updNode t2l t.nextNode (fun nd => { nd with left := li }))
              t.nextNode (fun nd =>
              { nd with right := invalidNodeValue,
                        rightValue := (codes.get ⟨fri.toNat, hvf.2⟩).value })).nodes.length := by
          rw [updNode_length, updNode_length, hlenL]
          exact hn
        have hnode : (updNode (updNode t2l t.nextNode
              (fun nd => { nd with left := li }))
              t.nextNode (fun nd =>
              { nd with right := invalidNodeValue,
                        rightValue := (codes.get ⟨fri.toNat, hvf.2⟩).value })).nodes.getD
            t.nextNode ⟨0,0,0,0⟩ =
            { t2l.nodes.getD t.nextNode ⟨0,0,0,0⟩ with
                left := li, right := invalidNodeValue,
                rightValue := (codes.get ⟨fri.toNat, hvf.2⟩).value } := by
          rw [updNode_getD_eq (updNode t2l t.nextNode
                (fun nd => { nd with left := li }))
                _ _ (by rw [updNode_length, hlenL]; exact hn),
              updNode_getD_eq t2l _ _ (by rw [hlenL]; exact hn)]
        refine ⟨hscan, rfl, ?_, ?_, ?_, ?_,
          decodeFrom_step_true dfuel _ t.nextNode bits hln,
          decodeFrom_step_false dfuel _ t.nextNode bits hln⟩
        · intro hc
          exact absurd hc hleaf_l
        · intro _
          exact ⟨li, t2l, rfl, hli, by rw [hnode]⟩
        · intro _
          rw [hnode, hgf]
          exact ⟨rfl, rfl⟩
        · intro hc
          exact absurd hleaf_r (by omega)
      · rw [if_neg hleaf_r] at hok2
        cases hR : buildHuffmanNode codes fuel
            (updNode t2l t.nextNode (fun nd => { nd with left := li }))
            (level+1) fri r with
        | error e => rw [hR] at hok2; exact absurd hok2 (by simp)
        | ok q =>
          obtain ⟨ri, t4⟩ := q
          rw [hR] at hok2
          dsimp only at hok2
          obtain ⟨h3, h4⟩ := Prod.mk.inj (Except.ok.inj hok2)
          subst h3
          subst h4
          have hspecR := build_ok_spec fuel codes _ (level+1) fri r ri t4 hR
            (by omega) (by omega) hrn
          obtain ⟨hri, hcountR, hlenR, hframeR⟩ := hspecR
          have hnn3 : (updNode t2l t.nextNode
              (fun nd => { nd with left := li })).nextNode = t2l.nextNode := rfl
          rw [hnn3] at hri hcountR
          have hfr4 : t4.nodes.getD t.nextNode ⟨0,0,0,0⟩ =
              (updNode t2l t.nextNode
                (fun nd => { nd with left := li })).nodes.getD
                t.nextNode ⟨0,0,0,0⟩ :=
            hframeR t.nextNode (by rw [hnn3]; omega)
          have hln : t.nextNode <
              (updNode t4 t.nextNode (fun nd => { nd with right := ri })).nodes.length := by
            rw [updNode_length, hlenR, updNode_length, hlenL]
            exact hn
          have hnode : (updNode t4 t.nextNode
                (fun nd => { nd with right := ri })).nodes.getD
                t.nextNode ⟨0,0,0,0⟩ =
              { t4.nodes.getD t.nextNode ⟨0,0,0,0⟩ with right := ri } :=
            updNode_getD_eq _ _ _ (by rw [hlenR, updNode_length, hlenL]; exact hn)
          refine ⟨hscan, rfl, ?_, ?_, ?_, ?_,
            decodeFrom_step_true dfuel _ t.nextNode bits hln,
            decodeFrom_step_false dfuel _ t.nextNode bits hln⟩
          · intro hc
            exact absurd hc hleaf_l
          · intro _
            refine ⟨li, t2l, rfl, hli, ?_⟩
            rw [hnode, hfr4, updNode_getD_eq t2l _ _ (by rw [hlenL]; exact hn)]
          · intro hc
            exact absurd hc hleaf_r
          · intro _
            refine ⟨_, ri, t4, hR, by rw [hnn3]; omega, by omega, ?_⟩
            rw [hnode]

/-- Witness for C2's amended theorem at the normal split of `[1,2,2]` over
`[0, 3)` at bit position 31: the bit-clear part `[0, 2)` (codes `0`, `2^30`)
is two entries, so it is built recursively and its root (node 1) is stored in
the root's left slot; the bit-set singleton at index 2 (code `2^31`, symbol 0)
becomes the right leaf. -/
theorem claim2_witness :
    scanFRI (huffmanCodesOf [1, 2, 2]) (levelTest 0) 0 3 = .ok 2 ∧
    (∃ li tl, buildHuffmanNode (huffmanCodesOf [1, 2, 2]) 1
        ⟨[⟨0,0,0,0⟩, ⟨0,0,0,0⟩, ⟨0,0,0,0⟩], 1⟩ 1 0 2 = .ok (li, tl) ∧
      li = 1 % 65536 ∧
      ((⟨[⟨1, 65535, 0, 0⟩, ⟨65535, 65535, 2, 1⟩, ⟨0, 0, 0, 0⟩], 2⟩ :
        HuffmanTree).nodes.getD 0 ⟨0,0,0,0⟩).left = li) ∧
    (((⟨[⟨1, 65535, 0, 0⟩, ⟨65535, 65535, 2, 1⟩, ⟨0, 0, 0, 0⟩], 2⟩ :
        HuffmanTree).nodes.getD 0 ⟨0,0,0,0⟩).right = invalidNodeValue ∧
     ((⟨[⟨1, 65535, 0, 0⟩, ⟨65535, 65535, 2, 1⟩, ⟨0, 0, 0, 0⟩], 2⟩ :
        HuffmanTree).nodes.getD 0 ⟨0,0,0,0⟩).rightValue =
       ((huffmanCodesOf [1, 2, 2]).getD 2 ⟨0,0,0⟩).value) := by
  have h := claim2_split_wiring (huffmanCodesOf [1, 2, 2]) 1 0
    ⟨[⟨0,0,0,0⟩, ⟨0,0,0,0⟩, ⟨0,0,0,0⟩], 0⟩
    ⟨[⟨1, 65535, 0, 0⟩, ⟨65535, 65535, 2, 1⟩, ⟨0, 0, 0, 0⟩], 2⟩
    0 0 3 2 0 []
    (by norm_num) (by norm_num) (by norm_num) (by decide)
    (by
      intro m h1 h2
      have hm : m = 0 ∨ m = 1 := by omega
      rcases hm with rfl | rfl <;> decide)
    (by
      intro m h1 h2
      have hm : m = 2 := by omega
      subst hm
      decide)
    rfl
  exact ⟨h.1, h.2.2.2.1 (by norm_num), h.2.2.2.2.1 (by norm_num)⟩

/-- C5, counterexample: the claim says the node array is pre-allocated to
exactly `n - 1` entries for `n` leaves.  For `[1,1]` (`n = 2` leaves) the
array is allocated with `len(lengths) = 2` entries, not `1`. -/
theorem claim5_counterexample :
    newHuffmanTree [1, 1] =
      .ok ⟨[⟨65535, 65535, 1, 0⟩, ⟨0, 0, 0, 0⟩], 1⟩ ∧
    ¬ ∃ t, newHuffmanTree [1, 1] = .ok t ∧ t.nodes.length = 2 - 1 := by
  refine ⟨rfl, ?_⟩
  rintro ⟨t, ht, hlen⟩
  have hlit : newHuffmanTree [1, 1] =
      .ok (⟨[⟨65535, 65535, 1, 0⟩, ⟨0, 0, 0, 0⟩], 1⟩ : HuffmanTree) := rfl
  rw [hlit] at ht
  have := Except.ok.inj ht
  rw [← this] at hlen
  simp at hlen


/-- C5, amended: after a successful construction from `n` code lengths the
tree contains exactly `n - 1` used non-leaf nodes (the final value of the
next-free-slot counter), but the node array is pre-allocated to `n` entries
(`make([]huffmanNode, len(codes.code))`), one more than the claim's `n - 1`. -/
theorem claim5_node_count (lengths : List Nat) (t : HuffmanTree)
    (h : newHuffmanTree lengths = .ok t) :
    t.nextNode = lengths.length - 1 ∧ t.nodes.length = lengths.length := by
  obtain ⟨h2, hlen, hcount⟩ := newHuffmanTree_ok_shape lengths t h
  exact ⟨by omega, hlen⟩

/-- Witness for C5's amended theorem at the successful construction from
`[1,2,2]`. -/
theorem claim5_witness :
    (⟨[⟨1, 65535, 0, 0⟩, ⟨65535, 65535, 2, 1⟩, ⟨0, 0, 0, 0⟩], 2⟩ :
      HuffmanTree).nextNode = 3 - 1 ∧
    (⟨[⟨1, 65535, 0, 0⟩, ⟨65535, 65535, 2, 1⟩, ⟨0, 0, 0, 0⟩], 2⟩ :
      HuffmanTree).nodes.length = 3 :=
  claim5_node_count [1, 2, 2] _ rfl

/-- C10: for length arrays inside the spec's 16-bit symbol model (at most
65536 symbols), the next-node counter of a successful construction ends at
`n - 1 ≤ 65535`, so every allocated node's raw index `k` (i.e. `k` below the
final counter) satisfies `uint16(k) = k ≠ 0xffff`: the `uint16` conversion of
the running counter never produces the leaf sentinel, and a child slot
holding a valid node index is never mistaken for a leaf. -/
theorem claim10_sentinel_never_allocated (lengths : List Nat) (t : HuffmanTree)
    (h : newHuffmanTree lengths = .ok t) (hw : lengths.length ≤ 65536) :
    t.nextNode ≤ 65535 ∧
      ∀ k, k < t.nextNode → k % 65536 ≠ invalidNodeValue := by
  obtain ⟨h2, hlen, hcount⟩ := newHuffmanTree_ok_shape lengths t h
  refine ⟨by omega, ?_⟩
  intro k hk
  have hk2 : k < 65535 := by omega
  rw [Nat.mod_eq_of_lt (by omega)]
  unfold invalidNodeValue
  omega

/-- Witness for C10 at the successful construction from `[1,2,2]`. -/
theorem claim10_witness :
    (⟨[⟨1, 65535, 0, 0⟩, ⟨65535, 65535, 2, 1⟩, ⟨0, 0, 0, 0⟩], 2⟩ :
      HuffmanTree).nextNode ≤ 65535 ∧
    ∀ k, k < (⟨[⟨1, 65535, 0, 0⟩, ⟨65535, 65535, 2, 1⟩, ⟨0, 0, 0, 0⟩], 2⟩ :
      HuffmanTree).nextNode → k % 65536 ≠ invalidNodeValue :=
  claim10_sentinel_never_allocated [1, 2, 2] _ rfl (by norm_num)


/-- C9: if the bit source is exhausted before a leaf is reached — at any node
of the walk — `Decode` fails with the truncated-stream error, which the
`Except` result propagates unchanged to the caller, and no symbol value is
returned (the `.error` constructor carries none).  The bit source is modelled
from the spec (`bit_reader.go` is not part of `src/`). -/
theorem claim9_truncated_propagates :
    (∀ (t : HuffmanTree) (i fuel : Nat), i < t.nodes.length →
      decodeFrom (fuel+1) t i [] = .error .truncated) ∧
    (∀ t : HuffmanTree, 0 < t.nodes.length → Decode t [] = .error .truncated) := by
  have h1 : ∀ (t : HuffmanTree) (i fuel : Nat), i < t.nodes.length →
      decodeFrom (fuel+1) t i [] = .error .truncated := by
    intro t i fuel h
    unfold decodeFrom
    rw [dif_pos h]
  refine ⟨h1, fun t h => h1 t 0 4294967295 h⟩

/-- Witness for C9 at the tree built from `[1,1]`. -/
theorem claim9_witness :
    Decode ⟨[⟨65535, 65535, 1, 0⟩, ⟨0, 0, 0, 0⟩], 1⟩ [] = .error .truncated :=
  claim9_truncated_propagates.2 ⟨[⟨65535, 65535, 1, 0⟩, ⟨0, 0, 0, 0⟩], 1⟩
    (by norm_num)


/-- C4: the canonical code assignment (modelled from the spec: codes assigned
in ascending (length, symbol) order, left-justified in 32 bits) gives the
lower-valued of two symbols with equal code length the numerically smaller
left-justified 32-bit code value — which, for equal lengths, is exactly the
lexicographically smaller code bit string. -/
theorem claim4_tiebreak (lengths : List Nat) (s1 s2 : Nat)
    (hs2 : s2 < lengths.length) (hlt : s1 < s2)
    (heq : lengths.getD s1 0 = lengths.getD s2 0)
    (hpos : 1 ≤ lengths.getD s1 0) (h32 : lengths.getD s1 0 ≤ 32)
    (hn : lengths.length ≤ 65536) :
    canonicalCodeVal lengths s1 < canonicalCodeVal lengths s2 := by
  have hs1 : s1 < lengths.length := by omega
  obtain ⟨hex1, hget1⟩ := pairIndexOf_spec lengths s1 hs1 hn
  obtain ⟨hex2, hget2⟩ := pairIndexOf_spec lengths s2 hs2 hn
  set ps := sortPairs (mkPairs lengths) with hps
  set j1 := pairIndexOf ps s1 with hj1def
  set j2 := pairIndexOf ps s2 with hj2def
  have hj12 : j1 < j2 := by
    rcases Nat.lt_trichotomy j1 j2 with h | h | h
    · exact h
    · exfalso
      have hgg : ps.get ⟨j1, hex1⟩ = ps.get ⟨j2, hex2⟩ := by
        congr 1
        exact Fin.ext h
      rw [hget1, hget2] at hgg
      have hss : s1 = s2 := congrArg SymbolLengthPair.value hgg
      omega
    · exfalso
      have hrel := (sortPairs_sorted lengths).rel_get_of_lt
        (a := ⟨j2, hex2⟩) (b := ⟨j1, hex1⟩) h
      rw [hget1, hget2] at hrel
      unfold pairLE at hrel
      simp only at hrel
      omega
  have hmods : canonicalCodeVal lengths s1 = canonPrefixVal ps j1 := by
    unfold canonicalCodeVal
    rw [← hps, Nat.mod_eq_of_lt (by omega : s1 < 65536)]
  have hmods2 : canonicalCodeVal lengths s2 = canonPrefixVal ps j2 := by
    unfold canonicalCodeVal
    rw [← hps, Nat.mod_eq_of_lt (by omega : s2 < 65536)]
  rw [hmods, hmods2]
  apply canonPrefixVal_lt ps j1 j2 hex1 hj12
  rw [hget1]
  exact incGo_pos _ hpos h32

/-- Witness for C4 at `lengths = [2,2,2,3]`, symbols 0 and 1 (both length 2). -/
theorem claim4_witness :
    canonicalCodeVal [2, 2, 2, 3] 0 < canonicalCodeVal [2, 2, 2, 3] 1 :=
  claim4_tiebreak [2, 2, 2, 3] 0 1 (by norm_num) (by norm_num) (by norm_num)
    (by norm_num) (by norm_num) (by norm_num)

end Bzip2

namespace Bzip2

lemma testBit_mul_pow (x m i : Nat) : (x * 2^m).testBit (m+i) = x.testBit i := by
  rw [Nat.testBit_to_div_mod, Nat.testBit_to_div_mod]
  have h : x * 2^m / 2^(m+i) = x / 2^i := by
    rw [pow_add, Nat.mul_comm x (2^m), Nat.mul_div_mul_left _ _ (Nat.pos_pow_of_pos m (by norm_num))]
  rw [h]

/-- Complement of an `len`-bit number, bit by bit. -/
lemma testBit_complement (len : Nat) : ∀ (w i : Nat), w < 2^len → i < len →
    (2^len - 1 - w).testBit i = !(w.testBit i) := by
  induction len with
  | zero => intro w i _ hi; omega
  | succ len ih =>
    intro w i hw hi
    have hq : w = 2 * (w / 2) + w % 2 := (Nat.div_add_mod w 2).symm ▸ by omega
    have hq2 : w / 2 < 2^len := by
      have : 2^(len+1) = 2 * 2^len := by rw [pow_succ]; ring
      omega
    have hx : 2^(len+1) - 1 - w = 2 * (2^len - 1 - w / 2) + (1 - w % 2) := by
      have h1 : 2^(len+1) = 2 * 2^len := by rw [pow_succ]; ring
      have h2 : w % 2 < 2 := Nat.mod_lt _ (by norm_num)
      omega
    cases i with
    | zero =>
      rw [Nat.testBit_zero, Nat.testBit_zero, hx]
      have h2 : w % 2 < 2 := Nat.mod_lt _ (by norm_num)
      rcases (show w % 2 = 0 ∨ w % 2 = 1 by omega) with h | h
      · rw [show (2 * (2^len - 1 - w / 2) + (1 - w % 2)) % 2 = 1 by omega, h]
        simp
      · rw [show (2 * (2^len - 1 - w / 2) + (1 - w % 2)) % 2 = 0 by omega, h]
        simp
    | succ i =>
      rw [Nat.testBit_succ, Nat.testBit_succ, hx]
      have h2 : w % 2 < 2 := Nat.mod_lt _ (by norm_num)
      have hd : (2 * (2^len - 1 - w / 2) + (1 - w % 2)) / 2 = 2^len - 1 - w / 2 := by
        omega
      rw [hd]
      exact ih (w / 2) i hq2 (by omega)

/-- Bit `m` of `base + off` when `base` is a multiple of `2^(m+1)` and
`off < 2^(m+1)`: set exactly when `off` is in the upper half. -/
lemma testBit_window (base off m : Nat) (hb : base % 2^(m+1) = 0)
    (ho : off < 2^(m+1)) :
    (base + off).testBit m = decide (2^m ≤ off) := by
  rw [Nat.testBit_to_div_mod]
  obtain ⟨B, hB⟩ : ∃ B, base = 2^(m+1) * B :=
    ⟨base / 2^(m+1), (Nat.mul_div_cancel' (Nat.dvd_of_mod_eq_zero hb)).symm⟩
  have hp : (2:Nat)^(m+1) = 2^m * 2 := by rw [pow_succ]
  have hpos : 0 < (2:Nat)^m := Nat.pos_pow_of_pos m (by norm_num)
  have hdiv : (base + off) / 2^m = 2 * B + off / 2^m := by
    rw [hB, hp]
    rw [show 2^m * 2 * B + off = off + (2 * B) * 2^m by ring]
    rw [Nat.add_mul_div_right _ _ hpos]
    ring
  rw [hdiv]
  have hoff : off / 2^m < 2 := by
    apply Nat.div_lt_of_lt_mul
    omega
  have hmod : (2 * B + off / 2^m) % 2 = off / 2^m % 2 := by
    rw [show 2 * B + off / 2^m = off / 2^m + B * 2 by ring,
        Nat.add_mul_mod_self_right]
  rw [hmod]
  rcases Nat.le_one_iff_eq_zero_or_eq_one.mp (Nat.lt_succ_iff.mp hoff) with h | h
  · rw [h]
    have : ¬ (2^m ≤ off) := by
      intro hle
      have := Nat.div_le_div_right (c := 2^m) hle
      rw [Nat.div_self hpos] at this
      omega
    simp [this]
  · rw [h]
    have : 2^m ≤ off := by
      by_contra hlt
      push_neg at hlt
      rw [Nat.div_eq_of_lt hlt] at h
      omega
    simp [this]

end Bzip2
namespace Bzip2

lemma canonPrefixVal_zero (qs : List SymbolLengthPair) : canonPrefixVal qs 0 = 0 := rfl

lemma canonPrefixVal_cons (p : SymbolLengthPair) (rest : List SymbolLengthPair) (k : Nat) :
    canonPrefixVal (p :: rest) (k+1) = incGo p.length + canonPrefixVal rest k := by
  unfold canonPrefixVal
  simp [List.take_succ_cons]

lemma assignAux_getD : ∀ (qs : List SymbolLengthPair) (c len0 : Nat) (k : Nat),
    qs.Sorted (fun a b => pairLE b a) →
    (∀ p ∈ qs, p.length ≤ len0) →
    c < 4294967296 →
    k < qs.length →
    (assignAux qs c len0).getD k ⟨0,0,0⟩ =
      ⟨(c + canonPrefixVal qs k) % 4294967296,
       (qs.getD k ⟨0,0⟩).length, (qs.getD k ⟨0,0⟩).value⟩ := by
  intro qs
  induction qs with
  | nil => intro c len0 k _ _ _ hk; simp at hk
  | cons p rest ih =>
    intro c len0 k hs hb hc hk
    have hlen2 : (if len0 > p.length then p.length else len0) = p.length := by
      have := hb p (List.mem_cons_self _ _)
      split <;> omega
    rw [List.sorted_cons] at hs
    cases k with
    | zero =>
      show (⟨c, _, p.value⟩ :: assignAux rest _ _).getD 0 ⟨0,0,0⟩ = _
      rw [canonPrefixVal_zero]
      simp only [List.getD_cons_zero]
      rw [hlen2]
      congr 1
      omega
    | succ k =>
      show (⟨c, _, p.value⟩ :: assignAux rest _ _).getD (k+1) ⟨0,0,0⟩ = _
      simp only [List.getD_cons_succ]
      rw [hlen2]
      rw [ih ((c + incGo p.length) % 4294967296) p.length k hs.2
        (fun q hq => by
          have := hs.1 q hq
          unfold pairLE at this
          omega)
        (Nat.mod_lt _ (by norm_num)) (by simpa using hk)]
      rw [canonPrefixVal_cons]
      congr 1
      rw [Nat.mod_add_mod]
      congr 1
      omega

end Bzip2
namespace Bzip2

lemma incGo_eq (L : Nat) (h1 : 1 ≤ L) (h32 : L ≤ 32) : incGo L = 2 ^ (32 - L) := by
  unfold incGo
  have hm : L % 256 = L := Nat.mod_eq_of_lt (by omega)
  rw [hm]
  have hsh : (288 - L) % 256 = 32 - L := by omega
  rw [hsh, if_pos (by omega)]

lemma map_range_getD (g : Nat → Nat) : ∀ (L : List Nat),
    (List.range L.length).map (fun i => g (L.getD i 0)) = L.map g := by
  intro L
  induction L with
  | nil => rfl
  | cons a tl ih =>
    show (List.range (tl.length + 1)).map _ = _
    rw [List.range_succ_eq_map]
    simp only [List.map_cons, List.map_map, List.getD_cons_zero]
    rw [show ((fun i => g ((a :: tl).getD i 0)) ∘ Nat.succ) =
        (fun i => g (tl.getD i 0)) from funext (fun i => by simp), ih]

lemma sum_inc_pairs (lengths : List Nat) :
    ((mkPairs lengths).map (fun p => incGo p.length)).sum =
      ((lengths.map (fun L => incGo L))).sum := by
  unfold mkPairs
  rw [List.map_map]
  rw [show ((fun p => incGo p.length) ∘ fun i =>
      (⟨i % 65536, lengths.getD i 0⟩ : SymbolLengthPair)) =
      (fun i => incGo (lengths.getD i 0)) from funext (fun i => rfl)]
  exact congrArg List.sum (map_range_getD incGo lengths)

lemma sum_inc_perm (lengths : List Nat) (qs : List SymbolLengthPair)
    (hperm : List.Perm qs (mkPairs lengths)) :
    (qs.map (fun p => incGo p.length)).sum = ((lengths.map (fun L => incGo L))).sum := by
  rw [← sum_inc_pairs]
  exact (hperm.map (fun p => incGo p.length)).sum_eq

lemma canonPrefixVal_total (qs : List SymbolLengthPair) :
    canonPrefixVal qs qs.length = (qs.map (fun p => incGo p.length)).sum := by
  unfold canonPrefixVal
  rw [List.take_length]

lemma canonPrefixVal_succ_get (qs : List SymbolLengthPair) (k : Nat) (hk : k < qs.length) :
    canonPrefixVal qs (k+1) = canonPrefixVal qs k + incGo ((qs.getD k ⟨0,0⟩).length) := by
  unfold canonPrefixVal
  rw [List.take_succ, List.map_append, List.sum_append,
      List.getElem?_eq_getElem hk, List.getD_eq_getElem _ _ hk]
  simp

lemma canonPrefixVal_le_of_le (qs : List SymbolLengthPair) (j k : Nat) (h : j ≤ k) :
    canonPrefixVal qs j ≤ canonPrefixVal qs k := by
  obtain ⟨d, rfl⟩ : ∃ d, k = j + d := ⟨k - j, by omega⟩
  unfold canonPrefixVal
  rw [List.take_add, List.map_append, List.sum_append]
  omega

end Bzip2
namespace Bzip2

/-- A list sorted by code and a strictly-increasing-by-code list that are
permutations of each other are equal. -/
lemma eq_of_perm_sorted_strict : ∀ (l1 l2 : List HuffmanCode),
    List.Perm l1 l2 → l1.Sorted codeLE →
    l2.Pairwise (fun x y => x.code < y.code) → l1 = l2 := by
  intro l1
  induction l1 with
  | nil => intro l2 hp _ _; exact (List.Perm.nil_eq hp).symm ▸ rfl
  | cons a t1 ih =>
    intro l2 hp hs1 hp2
    cases l2 with
    | nil => exact absurd hp.symm (by simp)
    | cons b t2 =>
      have hab : a = b := by
        by_contra hne
        have hamem : a ∈ b :: t2 := hp.mem_iff.mp (List.mem_cons_self _ _)
        have hbmem : b ∈ a :: t1 := hp.symm.mem_iff.mp (List.mem_cons_self _ _)
        rcases List.mem_cons.mp hamem with h | h
        · exact hne h
        · rcases List.mem_cons.mp hbmem with h2 | h2
          · exact hne h2.symm
          · have h3 : b.code < a.code := (List.pairwise_cons.mp hp2).1 a h
            have h4 : codeLE a b := (List.sorted_cons.mp hs1).1 b h2
            unfold codeLE at h4
            omega
      subst hab
      have hperm2 : List.Perm t1 t2 := (List.Perm.cons_inv hp)
      rw [ih t2 hperm2 (List.sorted_cons.mp hs1).2 (List.pairwise_cons.mp hp2).2]

end Bzip2
namespace Bzip2

lemma qs_sorted_flip (lengths : List Nat) :
    ((sortPairs (mkPairs lengths)).reverse).Sorted (fun a b => pairLE b a) := by
  unfold List.Sorted
  rw [List.pairwise_reverse]
  exact sortPairs_sorted lengths

lemma qs_perm (lengths : List Nat) :
    List.Perm ((sortPairs (mkPairs lengths)).reverse) (mkPairs lengths) :=
  (List.reverse_perm _).trans (List.perm_insertionSort pairLE (mkPairs lengths))

lemma qs_length (lengths : List Nat) :
    ((sortPairs (mkPairs lengths)).reverse).length = lengths.length := by
  rw [List.length_reverse, sortPairs, List.length_insertionSort]
  simp [mkPairs]

lemma qs_mem_bounds (lengths : List Nat)
    (hlen : ∀ L ∈ lengths, 1 ≤ L ∧ L ≤ 32) :
    ∀ p ∈ (sortPairs (mkPairs lengths)).reverse, 1 ≤ p.length ∧ p.length ≤ 32 := by
  intro p hp
  have hm : p ∈ mkPairs lengths := (qs_perm lengths).mem_iff.mp hp
  rw [mkPairs_mem] at hm
  obtain ⟨i, hi, rfl⟩ := hm
  have : lengths.getD i 0 ∈ lengths := by
    rw [List.getD_eq_getElem _ _ hi]
    exact List.getElem_mem hi
  exact hlen _ this

lemma qs_total (lengths : List Nat)
    (hlen : ∀ L ∈ lengths, 1 ≤ L ∧ L ≤ 32)
    (hkraft : (lengths.map (fun L => 2 ^ (32 - L))).sum = 4294967296) :
    (((sortPairs (mkPairs lengths)).reverse).map (fun p => incGo p.length)).sum
      = 4294967296 := by
  rw [sum_inc_perm lengths _ (qs_perm lengths)]
  rw [← hkraft]
  congr 1
  apply List.map_congr_left
  intro L hL
  exact incGo_eq L (hlen L hL).1 (hlen L hL).2

lemma qs_nowrap (lengths : List Nat)
    (hlen : ∀ L ∈ lengths, 1 ≤ L ∧ L ≤ 32)
    (hkraft : (lengths.map (fun L => 2 ^ (32 - L))).sum = 4294967296) :
    ∀ k, k < lengths.length →
      canonPrefixVal ((sortPairs (mkPairs lengths)).reverse) k +
        incGo ((((sortPairs (mkPairs lengths)).reverse).getD k ⟨0,0⟩).length)
        ≤ 4294967296 := by
  intro k hk
  have hk2 : k < ((sortPairs (mkPairs lengths)).reverse).length := by
    rw [qs_length]; exact hk
  rw [← canonPrefixVal_succ_get _ k hk2]
  calc canonPrefixVal _ (k+1)
      ≤ canonPrefixVal ((sortPairs (mkPairs lengths)).reverse)
          ((sortPairs (mkPairs lengths)).reverse).length :=
        canonPrefixVal_le_of_le _ _ _ (by omega)
    _ = 4294967296 := by
        rw [canonPrefixVal_total]
        exact qs_total lengths hlen hkraft

end Bzip2
namespace Bzip2

lemma canonPrefixVal_lt_total (lengths : List Nat)
    (hlen : ∀ L ∈ lengths, 1 ≤ L ∧ L ≤ 32)
    (hkraft : (lengths.map (fun L => 2 ^ (32 - L))).sum = 4294967296)
    (k : Nat) (hk : k < lengths.length) :
    canonPrefixVal ((sortPairs (mkPairs lengths)).reverse) k < 4294967296 := by
  have hk2 : k < ((sortPairs (mkPairs lengths)).reverse).length := by
    rw [qs_length]; exact hk
  have hmem : ((sortPairs (mkPairs lengths)).reverse).getD k ⟨0,0⟩ ∈
      (sortPairs (mkPairs lengths)).reverse := by
    rw [List.getD_eq_getElem _ _ hk2]
    exact List.getElem_mem hk2
  have hb := qs_mem_bounds lengths hlen _ hmem
  have hpos := incGo_pos _ hb.1 hb.2
  have := qs_nowrap lengths hlen hkraft k hk
  omega

lemma codesOf_eq (lengths : List Nat)
    (hlen : ∀ L ∈ lengths, 1 ≤ L ∧ L ≤ 32)
    (hkraft : (lengths.map (fun L => 2 ^ (32 - L))).sum = 4294967296) :
    huffmanCodesOf lengths =
      assignAux ((sortPairs (mkPairs lengths)).reverse) 0 32 := by
  have hlen2 : (assignAux ((sortPairs (mkPairs lengths)).reverse) 0 32).length
      = lengths.length := by
    rw [assignAux_length, qs_length]
  apply eq_of_perm_sorted_strict
  · show List.Perm (sortCodes (assignCodes (sortPairs (mkPairs lengths)))) _
    unfold assignCodes
    exact (List.perm_insertionSort codeLE _).trans (List.reverse_perm _)
  · exact List.sorted_insertionSort codeLE _
  · rw [List.pairwise_iff_getElem]
    intro i j hi hj hij
    have hi' : i < lengths.length := by rw [← hlen2]; exact hi
    have hj' : j < lengths.length := by rw [← hlen2]; exact hj
    have hiq : i < ((sortPairs (mkPairs lengths)).reverse).length := by
      rw [qs_length]; exact hi'
    have hjq : j < ((sortPairs (mkPairs lengths)).reverse).length := by
      rw [qs_length]; exact hj'
    have hgi : (assignAux ((sortPairs (mkPairs lengths)).reverse) 0 32)[i] =
        (assignAux ((sortPairs (mkPairs lengths)).reverse) 0 32).getD i ⟨0,0,0⟩ :=
      (List.getD_eq_getElem _ _ hi).symm
    have hgj : (assignAux ((sortPairs (mkPairs lengths)).reverse) 0 32)[j] =
        (assignAux ((sortPairs (mkPairs lengths)).reverse) 0 32).getD j ⟨0,0,0⟩ :=
      (List.getD_eq_getElem _ _ hj).symm
    rw [hgi, hgj,
      assignAux_getD _ 0 32 i (qs_sorted_flip lengths)
        (fun p hp => (qs_mem_bounds lengths hlen p hp).2) (by norm_num) hiq,
      assignAux_getD _ 0 32 j (qs_sorted_flip lengths)
        (fun p hp => (qs_mem_bounds lengths hlen p hp).2) (by norm_num) hjq]
    show (0 + canonPrefixVal _ i) % 4294967296 < (0 + canonPrefixVal _ j) % 4294967296
    rw [Nat.zero_add, Nat.zero_add,
      Nat.mod_eq_of_lt (canonPrefixVal_lt_total lengths hlen hkraft i hi'),
      Nat.mod_eq_of_lt (canonPrefixVal_lt_total lengths hlen hkraft j hj')]
    apply canonPrefixVal_lt _ i j hiq hij
    have hmem : ((sortPairs (mkPairs lengths)).reverse).get ⟨i, hiq⟩ ∈
        (sortPairs (mkPairs lengths)).reverse :=
      List.get_mem _ _ _
    have hb := qs_mem_bounds lengths hlen _ hmem
    exact incGo_pos _ hb.1 hb.2

lemma huffmanCodesOf_getD (lengths : List Nat)
    (hlen : ∀ L ∈ lengths, 1 ≤ L ∧ L ≤ 32)
    (hkraft : (lengths.map (fun L => 2 ^ (32 - L))).sum = 4294967296)
    (k : Nat) (hk : k < lengths.length) :
    (huffmanCodesOf lengths).getD k ⟨0,0,0⟩ =
      ⟨canonPrefixVal ((sortPairs (mkPairs lengths)).reverse) k,
       (((sortPairs (mkPairs lengths)).reverse).getD k ⟨0,0⟩).length,
       (((sortPairs (mkPairs lengths)).reverse).getD k ⟨0,0⟩).value⟩ := by
  rw [codesOf_eq lengths hlen hkraft]
  rw [assignAux_getD _ 0 32 k (qs_sorted_flip lengths)
      (fun p hp => (qs_mem_bounds lengths hlen p hp).2) (by norm_num)
      (by rw [qs_length]; exact hk)]
  congr 1
  rw [Nat.zero_add]
  exact Nat.mod_eq_of_lt (canonPrefixVal_lt_total lengths hlen hkraft k hk)

lemma qs_align (lengths : List Nat)
    (hlen : ∀ L ∈ lengths, 1 ≤ L ∧ L ≤ 32)
    (hkraft : (lengths.map (fun L => 2 ^ (32 - L))).sum = 4294967296)
    (k : Nat) (hk : k < lengths.length) :
    2 ^ (32 - (((sortPairs (mkPairs lengths)).reverse).getD k ⟨0,0⟩).length) ∣
      canonPrefixVal ((sortPairs (mkPairs lengths)).reverse) k := by
  have hk2 : k < ((sortPairs (mkPairs lengths)).reverse).length := by
    rw [qs_length]; exact hk
  have hsplit : canonPrefixVal ((sortPairs (mkPairs lengths)).reverse) k +
      ((((sortPairs (mkPairs lengths)).reverse).drop k).map
        (fun p => incGo p.length)).sum = 4294967296 := by
    have h3 : canonPrefixVal ((sortPairs (mkPairs lengths)).reverse) k +
        ((((sortPairs (mkPairs lengths)).reverse).drop k).map
          (fun p => incGo p.length)).sum =
        (((sortPairs (mkPairs lengths)).reverse).map
          (fun p => incGo p.length)).sum := by
      unfold canonPrefixVal
      rw [← List.sum_append, ← List.map_append, List.take_append_drop]
    rw [h3]
    exact qs_total lengths hlen hkraft
  have hdvd_suffix : 2 ^ (32 -
      (((sortPairs (mkPairs lengths)).reverse).getD k ⟨0,0⟩).length) ∣
      ((((sortPairs (mkPairs lengths)).reverse).drop k).map
        (fun p => incGo p.length)).sum := by
    apply List.dvd_sum
    intro x hx
    rw [List.mem_map] at hx
    obtain ⟨p, hp, rfl⟩ := hx
    rw [List.mem_iff_getElem] at hp
    obtain ⟨m, hm, hpe⟩ := hp
    have hm2 : k + m < ((sortPairs (mkPairs lengths)).reverse).length := by
      rw [List.length_drop] at hm
      omega
    have hpe2 : p = ((sortPairs (mkPairs lengths)).reverse).get ⟨k + m, hm2⟩ := by
      rw [← hpe]
      rw [List.getElem_drop]
      rfl
    have hpk : (((sortPairs (mkPairs lengths)).reverse).getD k ⟨0,0⟩) =
        ((sortPairs (mkPairs lengths)).reverse).get ⟨k, hk2⟩ :=
      List.getD_eq_getElem _ _ hk2
    have hpmem : p ∈ (sortPairs (mkPairs lengths)).reverse := by
      rw [hpe2]
      exact List.get_mem _ _ _
    have hbp := qs_mem_bounds lengths hlen p hpmem
    rw [incGo_eq p.length hbp.1 hbp.2]
    apply pow_dvd_pow
    rcases Nat.eq_zero_or_pos m with hm0 | hmpos
    · subst hm0
      have hfin : (⟨k + 0, hm2⟩ :
          Fin ((sortPairs (mkPairs lengths)).reverse.length)) = ⟨k, hk2⟩ :=
        rfl
      rw [hpk, hpe2, hfin]
    · have hrel := (qs_sorted_flip lengths).rel_get_of_lt
        (a := ⟨k, hk2⟩) (b := ⟨k + m, hm2⟩) (by simp; omega)
      rw [← hpe2] at hrel
      unfold pairLE at hrel
      rw [hpk]
      omega
  have h32 : 2 ^ (32 -
      (((sortPairs (mkPairs lengths)).reverse).getD k ⟨0,0⟩).length) ∣
      4294967296 := by
    rw [show (4294967296 : Nat) = 2 ^ 32 by norm_num]
    exact pow_dvd_pow 2 (by omega)
  have heq : canonPrefixVal ((sortPairs (mkPairs lengths)).reverse) k =
      4294967296 - ((((sortPairs (mkPairs lengths)).reverse).drop k).map
        (fun p => incGo p.length)).sum := by
    omega
  rw [heq]
  exact Nat.dvd_sub' h32 hdvd_suffix

end Bzip2
namespace Bzip2

lemma codeSpec_of (lengths : List Nat) (h2 : 2 ≤ lengths.length)
    (h16 : lengths.length ≤ 65536)
    (hlen : ∀ L ∈ lengths, 1 ≤ L ∧ L ≤ 32)
    (hkraft : (lengths.map (fun L => 2 ^ (32 - L))).sum = 4294967296) :
    CodeSpec (huffmanCodesOf lengths)
      (canonPrefixVal ((sortPairs (mkPairs lengths)).reverse)) := by
  have hL : (huffmanCodesOf lengths).length = lengths.length :=
    huffmanCodesOf_length lengths
  have hmem : ∀ k, k < lengths.length →
      (((sortPairs (mkPairs lengths)).reverse).getD k ⟨0,0⟩) ∈
        (sortPairs (mkPairs lengths)).reverse := by
    intro k hk
    have hk2 : k < ((sortPairs (mkPairs lengths)).reverse).length := by
      rw [qs_length]; exact hk
    rw [List.getD_eq_getElem _ _ hk2]
    exact List.getElem_mem hk2
  refine ⟨by omega, by omega, ?_, ?_, ?_, ?_, ?_⟩
  · intro k hk
    rw [huffmanCodesOf_getD lengths hlen hkraft k (by omega)]
  · intro k hk
    rw [huffmanCodesOf_getD lengths hlen hkraft k (by omega)]
    exact (qs_mem_bounds lengths hlen _ (hmem k (by omega))).1
  · intro k hk
    rw [huffmanCodesOf_getD lengths hlen hkraft k (by omega)]
    exact (qs_mem_bounds lengths hlen _ (hmem k (by omega))).2
  · intro k hk
    rw [huffmanCodesOf_getD lengths hlen hkraft k (by omega)]
    have hk2 : k < ((sortPairs (mkPairs lengths)).reverse).length := by
      rw [qs_length]; omega
    rw [canonPrefixVal_succ_get _ k hk2]
    have hb := qs_mem_bounds lengths hlen _ (hmem k (by omega))
    rw [incGo_eq _ hb.1 hb.2]
  · intro k hk
    rw [huffmanCodesOf_getD lengths hlen hkraft k (by omega)]
    exact qs_align lengths hlen hkraft k (by omega)

lemma codeSpec_le (codes : List HuffmanCode) (C : Nat → Nat)
    (hs : CodeSpec codes C) :
    ∀ (d a : Nat), a + d ≤ codes.length → C a ≤ C (a + d) := by
  intro d
  induction d with
  | zero => intro a h; exact le_refl _
  | succ d ih =>
    intro a h
    have h1 : C a ≤ C (a + d) := ih a (by omega)
    have h2 : C (a + d + 1) =
        C (a + d) + 2 ^ (32 - (codes.getD (a+d) ⟨0,0,0⟩).codeLen) :=
      hs.succ_eq (a+d) (by omega)
    have h2b : 1 ≤ 2 ^ (32 - (codes.getD (a+d) ⟨0,0,0⟩).codeLen) :=
      Nat.one_le_two_pow
    show C a ≤ C (a + d + 1)
    omega

lemma codeSpec_lt (codes : List HuffmanCode) (C : Nat → Nat)
    (hs : CodeSpec codes C) :
    ∀ a b, a < b → b ≤ codes.length → C a < C b := by
  intro a b hab hbn
  have h1 : C (a+1) = C a + 2 ^ (32 - (codes.getD a ⟨0,0,0⟩).codeLen) :=
    hs.succ_eq a (by omega)
  have h2 : 1 ≤ 2 ^ (32 - (codes.getD a ⟨0,0,0⟩).codeLen) :=
    Nat.one_le_two_pow
  have h3 : C (a+1) ≤ C b := by
    have h4 := codeSpec_le codes C hs (b - (a+1)) (a+1) (by omega)
    have he : a + 1 + (b - (a+1)) = b := by omega
    rw [he] at h4
    exact h4
  omega

lemma levelTest_eq (p : Nat) (hp : p ≤ 31) : levelTest p = 2 ^ (31 - p) := by
  unfold levelTest
  have h1 : p % 4294967296 = p := Nat.mod_eq_of_lt (by omega)
  rw [h1]
  have h2 : (4294967327 - p) % 4294967296 = 31 - p := by omega
  rw [h2, if_pos (by omega)]

lemma and_pow_eq_zero_iff (c j : Nat) :
    c &&& 2 ^ j = 0 ↔ c.testBit j = false := by
  rw [Nat.and_two_pow]
  rcases Bool.eq_false_or_eq_true (c.testBit j) with h | h <;>
    simp [h]

end Bzip2
namespace Bzip2

lemma codeSpec_le2 (codes : List HuffmanCode) (C : Nat → Nat)
    (hs : CodeSpec codes C) (a b : Nat) (hab : a ≤ b)
    (hbn : b ≤ codes.length) : C a ≤ C b := by
  have h := codeSpec_le codes C hs (b - a) a (by omega)
  have he : a + (b - a) = b := by omega
  rw [he] at h
  exact h

lemma window_len_lb (codes : List HuffmanCode) (C : Nat → Nat)
    (hs : CodeSpec codes C) (p ln rn : Nat)
    (hrn : rn ≤ codes.length) (h2 : 2 ≤ rn - ln) (hp : p ≤ 31)
    (hw : C rn = C ln + 2 ^ (32 - p)) :
    ∀ k, ln ≤ k → k < rn → p + 1 ≤ (codes.getD k ⟨0,0,0⟩).codeLen := by
  intro k hk1 hk2
  have hck : C ln ≤ C k := codeSpec_le2 codes C hs ln k hk1 (by omega)
  have hck1 : C (k+1) ≤ C rn := codeSpec_le2 codes C hs (k+1) rn (by omega) hrn
  have hsucc : C (k+1) = C k +
      2 ^ (32 - (codes.getD k ⟨0,0,0⟩).codeLen) := hs.succ_eq k (by omega)
  have hle : 2 ^ (32 - (codes.getD k ⟨0,0,0⟩).codeLen) ≤ 2 ^ (32 - p) := by
    omega
  have hLp : p ≤ (codes.getD k ⟨0,0,0⟩).codeLen := by
    by_contra h
    push_neg at h
    have : 2 ^ (32 - p) < 2 ^ (32 - (codes.getD k ⟨0,0,0⟩).codeLen) :=
      Nat.pow_lt_pow_right (by norm_num) (by omega)
    omega
  by_contra hcon
  push_neg at hcon
  have hLeq : (codes.getD k ⟨0,0,0⟩).codeLen = p := by omega
  rw [hLeq] at hsucc
  have hckeq : C k = C ln := by omega
  have hk1eq : C (k+1) = C rn := by omega
  have hkl : k = ln := by
    by_contra hne
    have : C ln < C k := codeSpec_lt codes C hs ln k (by omega) (by omega)
    omega
  have hkr : k + 1 = rn := by
    by_contra hne
    have : C (k+1) < C rn := codeSpec_lt codes C hs (k+1) rn (by omega) hrn
    omega
  omega

lemma window_testBit (codes : List HuffmanCode) (C : Nat → Nat)
    (hs : CodeSpec codes C) (p ln rn : Nat)
    (hrn : rn ≤ codes.length) (hp : p ≤ 31)
    (hw : C rn = C ln + 2 ^ (32 - p)) (halign : 2 ^ (32 - p) ∣ C ln) :
    ∀ k, ln ≤ k → k < rn →
      (C k).testBit (31 - p) = decide (2 ^ (31 - p) ≤ C k - C ln) := by
  intro k hk1 hk2
  have hck : C ln ≤ C k := codeSpec_le2 codes C hs ln k hk1 (by omega)
  have hcklt : C k < C rn := codeSpec_lt codes C hs k rn hk2 hrn
  have hsub : 32 - p = (31 - p) + 1 := by omega
  have hoff : C k - C ln < 2 ^ ((31 - p) + 1) := by
    rw [← hsub]
    omega
  have hb : C ln % 2 ^ ((31 - p) + 1) = 0 := by
    rw [← hsub]
    obtain ⟨c, hc⟩ := halign
    rw [hc]
    exact Nat.mul_mod_right _ _
  have hck_eq : C k = C ln + (C k - C ln) := by omega
  conv_lhs => rw [hck_eq]
  exact testBit_window (C ln) (C k - C ln) (31 - p) hb hoff

lemma window_bit_low (codes : List HuffmanCode) (C : Nat → Nat)
    (hs : CodeSpec codes C) (p ln rn m : Nat)
    (hrn : rn ≤ codes.length) (hp : p ≤ 31)
    (hw : C rn = C ln + 2 ^ (32 - p)) (halign : 2 ^ (32 - p) ∣ C ln)
    (hm2 : m < rn) (hcm : C m = C ln + 2 ^ (31 - p)) :
    ∀ k, ln ≤ k → k < m → (C k).testBit (31 - p) = false := by
  intro k hk1 hk2
  rw [window_testBit codes C hs p ln rn hrn hp hw halign k hk1 (by omega)]
  have : C k < C m := codeSpec_lt codes C hs k m hk2 (by omega)
  have hpow : 0 < 2 ^ (31 - p) := by positivity
  simp only [decide_eq_false_iff_not, not_le]
  omega

lemma window_bit_high (codes : List HuffmanCode) (C : Nat → Nat)
    (hs : CodeSpec codes C) (p ln rn m : Nat)
    (hrn : rn ≤ codes.length) (hp : p ≤ 31)
    (hw : C rn = C ln + 2 ^ (32 - p)) (halign : 2 ^ (32 - p) ∣ C ln)
    (hm1 : ln ≤ m) (hcm : C m = C ln + 2 ^ (31 - p)) :
    ∀ k, m ≤ k → k < rn → (C k).testBit (31 - p) = true := by
  intro k hk1 hk2
  rw [window_testBit codes C hs p ln rn hrn hp hw halign k (by omega) hk2]
  have : C m ≤ C k := codeSpec_le2 codes C hs m k hk1 (by omega)
  have hpow : 0 < 2 ^ (31 - p) := by positivity
  simp only [decide_eq_true_eq]
  omega

lemma split_climb (codes : List HuffmanCode) (C : Nat → Nat)
    (hs : CodeSpec codes C) (p ln rn : Nat)
    (hrn : rn ≤ codes.length) (h2 : 2 ≤ rn - ln) (hp : p ≤ 31)
    (hw : C rn = C ln + 2 ^ (32 - p)) (halign : 2 ^ (32 - p) ∣ C ln) :
    ∀ (d k : Nat), k + d = rn → ln ≤ k → C k ≤ C ln + 2 ^ (31 - p) →
      ∃ m, k ≤ m ∧ m < rn ∧ C m = C ln + 2 ^ (31 - p) := by
  intro d
  induction d with
  | zero =>
    intro k hkd hlk hck
    exfalso
    have hkr : k = rn := by omega
    subst hkr
    have : 2 ^ (31 - p) < 2 ^ (32 - p) :=
      Nat.pow_lt_pow_right (by norm_num) (by omega)
    omega
  | succ d ih =>
    intro k hkd hlk hck
    by_cases heq : C k = C ln + 2 ^ (31 - p)
    · exact ⟨k, le_refl k, by omega, heq⟩
    · have hlt : C k < C ln + 2 ^ (31 - p) := lt_of_le_of_ne hck heq
      have hkr : k < rn := by omega
      have hL := window_len_lb codes C hs p ln rn hrn h2 hp hw k hlk hkr
      have hsucc : C (k+1) = C k +
          2 ^ (32 - (codes.getD k ⟨0,0,0⟩).codeLen) := hs.succ_eq k (by omega)
      have hd2a : 2 ^ (32 - (codes.getD k ⟨0,0,0⟩).codeLen) ∣ C k :=
        hs.align k (by omega)
      have hd2t : 2 ^ (32 - (codes.getD k ⟨0,0,0⟩).codeLen) ∣
          C ln + 2 ^ (31 - p) := by
        apply Nat.dvd_add
        · exact dvd_trans (pow_dvd_pow 2 (by omega)) halign
        · exact pow_dvd_pow 2 (by omega)
      have hstep : C (k+1) ≤ C ln + 2 ^ (31 - p) := by
        have hdd : 2 ^ (32 - (codes.getD k ⟨0,0,0⟩).codeLen) ∣
            (C ln + 2 ^ (31 - p) - C k) := Nat.dvd_sub' hd2t hd2a
        have hpos : 0 < C ln + 2 ^ (31 - p) - C k := by omega
        have := Nat.le_of_dvd hpos hdd
        omega
      obtain ⟨m, hm1, hm2, hm3⟩ := ih (k+1) (by omega) (by omega) hstep
      exact ⟨m, by omega, hm2, hm3⟩

lemma split_exists (codes : List HuffmanCode) (C : Nat → Nat)
    (hs : CodeSpec codes C) (p ln rn : Nat)
    (hlr : ln < rn) (hrn : rn ≤ codes.length) (h2 : 2 ≤ rn - ln) (hp : p ≤ 31)
    (hw : C rn = C ln + 2 ^ (32 - p)) (halign : 2 ^ (32 - p) ∣ C ln) :
    ∃ m, ln < m ∧ m < rn ∧ C m = C ln + 2 ^ (31 - p) := by
  obtain ⟨m, hm1, hm2, hm3⟩ := split_climb codes C hs p ln rn hrn h2 hp hw
    halign (rn - ln) ln (by omega) (le_refl ln) (Nat.le_add_right _ _)
  refine ⟨m, ?_, hm2, hm3⟩
  have hpow : 0 < 2 ^ (31 - p) := by positivity
  rcases Nat.lt_or_ge ln m with h | h
  · exact h
  · exfalso
    have hml : m = ln := by omega
    rw [hml] at hm3
    omega

end Bzip2
namespace Bzip2

lemma cbits_len (c p len : Nat) : (cbits c p len).length = len - p := by
  simp [cbits]

lemma cbits_nil (c p len : Nat) (h : len ≤ p) : cbits c p len = [] := by
  unfold cbits
  rw [Nat.sub_eq_zero_of_le h]
  rfl

lemma cbits_cons (c p len : Nat) (h : p < len) :
    cbits c p len = (!(c.testBit (31 - p))) :: cbits c (p+1) len := by
  unfold cbits
  have h1 : len - p = (len - (p+1)) + 1 := by omega
  rw [h1, List.range_succ_eq_map]
  simp only [List.map_cons, List.map_map, Nat.add_zero]
  congr 1
  apply List.map_congr_left
  intro k _
  show (!(c.testBit (31 - (p + (k + 1))))) = (!(c.testBit (31 - (p + 1 + k))))
  rw [show p + (k + 1) = p + 1 + k from by omega]

lemma cbits_single (c p : Nat) : cbits c p (p+1) = [!(c.testBit (31 - p))] := by
  rw [cbits_cons c p (p+1) (by omega), cbits_nil c (p+1) (p+1) (le_refl _)]

/-- Over a window `[ln, rn)` whose codes share their top `p` bits and whose
boundary `m` is the first entry with bit `31-p` set, the scan of
`buildHuffmanNode` lands exactly on `m`. -/
lemma window_scan (codes : List HuffmanCode) (C : Nat → Nat)
    (hs : CodeSpec codes C) (p ln rn m : Nat)
    (hrn : rn ≤ codes.length) (hp : p ≤ 31)
    (hw : C rn = C ln + 2 ^ (32 - p)) (halign : 2 ^ (32 - p) ∣ C ln)
    (hm1 : ln ≤ m) (hm2 : m < rn) (hcm : C m = C ln + 2 ^ (31 - p)) :
    scanFRI codes (levelTest p) (ln : Int) (rn : Int) = .ok (m : Int) := by
  rw [levelTest_eq p hp]
  apply scanFRI_finds codes _ (ln : Int) (rn : Int) (m : Int)
    (by positivity) (by exact_mod_cast hm1) (by exact_mod_cast hm2)
    (by exact_mod_cast hrn)
  · intro i h1 h2
    have hik : i.toNat < m := by omega
    have hik2 : ln ≤ i.toNat := by omega
    have hit : i.toNat < codes.length := by omega
    rw [hs.code_eq i.toNat hit]
    rw [and_pow_eq_zero_iff]
    exact window_bit_low codes C hs p ln rn m hrn hp hw halign hm2 hcm
      i.toNat hik2 hik
  · have hmt : ((m : Int)).toNat = m := by omega
    rw [hmt, hs.code_eq m (by omega)]
    rw [Nat.and_two_pow]
    have hbit : (C m).testBit (31 - p) = true :=
      window_bit_high codes C hs p ln rn m hrn hp hw halign hm1 hcm
        m (le_refl m) hm2
    rw [hbit]
    have : 0 < 2 ^ (31 - p) := by positivity
    simp

end Bzip2
namespace Bzip2

lemma p_le_30_of_gap (codes : List HuffmanCode) (C : Nat → Nat)
    (hs : CodeSpec codes C) (a b p : Nat) (hab2 : 2 ≤ b - a)
    (hbn : b ≤ codes.length) (hp : p ≤ 31)
    (hgap : C b = C a + 2 ^ (31 - p)) : p ≤ 30 := by
  have ha := codeSpec_lt codes C hs a (a+1) (by omega) (by omega)
  have hb2 := codeSpec_lt codes C hs (a+1) b (by omega) hbn
  by_contra hc
  push_neg at hc
  have h31 : 31 - p = 0 := by omega
  rw [h31, pow_zero] at hgap
  omega

lemma side_len_eq (codes : List HuffmanCode) (C : Nat → Nat)
    (hs : CodeSpec codes C) (a p : Nat) (ha : a < codes.length) (hp : p ≤ 31)
    (hgap : C (a+1) = C a + 2 ^ (31 - p)) :
    (codes.getD a ⟨0,0,0⟩).codeLen = p + 1 := by
  have hsucc := hs.succ_eq a ha
  have hpe : 2 ^ (32 - (codes.getD a ⟨0,0,0⟩).codeLen) = 2 ^ (31 - p) := by
    omega
  have hexp := Nat.pow_right_injective (le_refl 2) hpe
  have hub := hs.len_ub a ha
  have hlb := hs.len_lb a ha
  omega

end Bzip2
namespace Bzip2

set_option maxHeartbeats 1000000

lemma build_decode (codes : List HuffmanCode) (C : Nat → Nat)
    (hs : CodeSpec codes C) :
    ∀ (fuel : Nat) (t : HuffmanTree) (p ln rn : Nat),
    ln < rn → rn ≤ codes.length → 2 ≤ rn - ln → p ≤ 31 →
    C rn = C ln + 2 ^ (32 - p) →
    2 ^ (32 - p) ∣ C ln →
    t.nodes.length = codes.length →
    t.nextNode + (rn - ln) ≤ codes.length →
    32 ≤ fuel + p →
    ∃ t2, buildHuffmanNode codes fuel t p (ln : Int) (rn : Int) =
        .ok (t.nextNode % 65536, t2) ∧
      t2.nextNode + 1 = t.nextNode + (rn - ln) ∧
      t2.nodes.length = codes.length ∧
      (∀ k, k < t.nextNode →
        t2.nodes.getD k ⟨0,0,0,0⟩ = t.nodes.getD k ⟨0,0,0,0⟩) ∧
      ∀ tf : HuffmanTree, tf.nodes.length = codes.length →
        (∀ j, t.nextNode ≤ j → j + 1 < t.nextNode + (rn - ln) →
          tf.nodes.getD j ⟨0,0,0,0⟩ = t2.nodes.getD j ⟨0,0,0,0⟩) →
        ∀ k, ln ≤ k → k < rn →
        ∀ df rest, 32 ≤ df + p →
        decodeFrom df tf t.nextNode
            (cbits (C k) p ((codes.getD k ⟨0,0,0⟩).codeLen) ++ rest) =
          .ok ((codes.getD k ⟨0,0,0⟩).value, rest) := by
  intro fuel
  induction fuel with
  | zero =>
    intro t p ln rn _ _ _ hp _ _ _ _ hfuel
    exact absurd hfuel (by omega)
  | succ f ih =>
    intro t p ln rn hlr hrn h2 hp hw halign hlen_t hres hfuel
    obtain ⟨m, hm1, hm2, hcm⟩ :=
      split_exists codes C hs p ln rn hlr hrn h2 hp hw halign
    have h16 := hs.size16
    have hn : t.nextNode < t.nodes.length := by rw [hlen_t]; omega
    have hscan := window_scan codes C hs p ln rn m hrn hp hw halign
      (by omega) hm2 hcm
    have hdeg : ¬ ((m : Int) - (ln : Int) = 0 ∨ (rn : Int) - (m : Int) = 0) := by
      omega
    have hvl : 0 ≤ (ln : Int) ∧ ((ln : Int)).toNat < codes.length :=
      ⟨by positivity, by omega⟩
    have hvf : 0 ≤ (m : Int) ∧ ((m : Int)).toNat < codes.length :=
      ⟨by positivity, by omega⟩
    have hgl : codes.getD ln ⟨0,0,0⟩ = codes.get ⟨((ln : Int)).toNat, hvl.2⟩ :=
      List.getD_eq_getElem _ _ hvl.2
    have hgf : codes.getD m ⟨0,0,0⟩ = codes.get ⟨((m : Int)).toNat, hvf.2⟩ :=
      List.getD_eq_getElem _ _ hvf.2
    have hiv : invalidNodeValue = 65535 := rfl
    have hbitlow := window_bit_low codes C hs p ln rn m hrn hp hw halign hm2 hcm
    have hbithigh := window_bit_high codes C hs p ln rn m hrn hp hw halign
      (by omega) hcm
    have hpow2 : 2 ^ (32 - p) = 2 ^ (31 - p) + 2 ^ (31 - p) := by
      rw [show 32 - p = (31 - p) + 1 from by omega, pow_succ]
      omega
    have hwl : C m = C ln + 2 ^ (32 - (p+1)) := by
      rw [show 32 - (p+1) = 31 - p from by omega]
      exact hcm
    have hwr : C rn = C m + 2 ^ (32 - (p+1)) := by
      rw [show 32 - (p+1) = 31 - p from by omega]
      omega
    have halignl : 2 ^ (32 - (p+1)) ∣ C ln := by
      rw [show 32 - (p+1) = 31 - p from by omega]
      exact dvd_trans (pow_dvd_pow 2 (by omega)) halign
    have halignr : 2 ^ (32 - (p+1)) ∣ C m := by
      rw [show 32 - (p+1) = 31 - p from by omega, hcm]
      exact Nat.dvd_add (dvd_trans (pow_dvd_pow 2 (by omega)) halign) dvd_rfl
    have hlenk : ∀ k, ln ≤ k → k < rn →
        p + 1 ≤ (codes.getD k ⟨0,0,0⟩).codeLen :=
      window_len_lb codes C hs p ln rn hrn h2 hp hw
    by_cases hL1 : m - ln = 1
    · have hLl : (codes.getD ln ⟨0,0,0⟩).codeLen = p + 1 := by
        apply side_len_eq codes C hs ln p (by omega) hp
        rw [show ln + 1 = m from by omega]
        exact hcm
      have hfril : (m : Int) - (ln : Int) = 1 := by omega
      by_cases hR1 : rn - m = 1
      · -- Branch A: both sides single entries, stored inline
        have hLr : (codes.getD m ⟨0,0,0⟩).codeLen = p + 1 := by
          apply side_len_eq codes C hs m p (by omega) hp
          rw [show m + 1 = rn from by omega]
          omega
        have hfrir : (rn : Int) - (m : Int) = 1 := by omega
        have hEq : buildHuffmanNode codes (f+1) t p (ln : Int) (rn : Int) =
            .ok (t.nextNode % 65536,
              updNode (updNode ⟨t.nodes, t.nextNode+1⟩ t.nextNode (fun nd =>
                { nd with left := invalidNodeValue,
                          leftValue :=
                            (codes.get ⟨((ln : Int)).toNat, hvl.2⟩).value }))
                t.nextNode (fun nd =>
                { nd with right := invalidNodeValue,
                          rightValue :=
                            (codes.get ⟨((m : Int)).toNat, hvf.2⟩).value })) := by
          unfold buildHuffmanNode
          rw [hscan]
          dsimp only
          rw [if_neg hdeg, dif_pos hn, if_pos hfril, dif_pos hvl]
          dsimp only
          rw [if_pos hfrir, dif_pos hvf]
        obtain ⟨hni, hcnt, hlen2, hfrm⟩ := build_ok_spec (f+1) codes t p
          (ln : Int) (rn : Int) _ _ hEq (by positivity) (by omega) (by omega)
        refine ⟨_, hEq, by omega, by omega, hfrm, ?_⟩
        intro tf hlenf hagree k hk1 hk2 df rest hdf
        obtain ⟨df', rfl⟩ : ∃ d, df = d + 1 := ⟨df - 1, by omega⟩
        have hidxf := hagree t.nextNode (le_refl _) (by omega)
        have hnodeA : (updNode (updNode ⟨t.nodes, t.nextNode+1⟩ t.nextNode
              (fun nd =>
                { nd with left := invalidNodeValue,
                          leftValue :=
                            (codes.get ⟨((ln : Int)).toNat, hvl.2⟩).value }))
              t.nextNode (fun nd =>
              { nd with right := invalidNodeValue,
                        rightValue :=
                          (codes.get ⟨((m : Int)).toNat, hvf.2⟩).value })).nodes.getD
            t.nextNode ⟨0,0,0,0⟩ =
            ⟨invalidNodeValue, invalidNodeValue,
              (codes.get ⟨((ln : Int)).toNat, hvl.2⟩).value,
              (codes.get ⟨((m : Int)).toNat, hvf.2⟩).value⟩ := by
          rw [updNode_getD_eq (updNode ⟨t.nodes, t.nextNode+1⟩ t.nextNode
                (fun nd =>
                  { nd with left := invalidNodeValue,
                            leftValue :=
                              (codes.get ⟨((ln : Int)).toNat, hvl.2⟩).value }))
              _ _ (by rw [updNode_length]; exact hn),
            updNode_getD_eq ⟨t.nodes, t.nextNode+1⟩ _ _ hn]
        have hlb : t.nextNode < tf.nodes.length := by rw [hlenf]; omega
        have hkln : k = ln ∨ k = m := by omega
        rcases hkln with rfl | rfl
        · rw [hLl, cbits_single, hbitlow k (le_refl _) (by omega),
            Bool.not_false, List.singleton_append]
          rw [decodeFrom_step_true df' tf t.nextNode rest hlb]
          rw [hidxf, hnodeA]
          rw [if_pos rfl]
          rw [hgl]
        · rw [hLr, cbits_single, hbithigh k (le_refl _) (by omega),
            Bool.not_true, List.singleton_append]
          rw [decodeFrom_step_false df' tf t.nextNode rest hlb]
          rw [hidxf, hnodeA]
          rw [if_pos rfl]
          rw [hgf]
      · -- Branch B: left leaf, right recursive
        have hrm2 : 2 ≤ rn - m := by omega
        have hp30 : p ≤ 30 :=
          p_le_30_of_gap codes C hs m rn p hrm2 hrn hp (by omega)
        obtain ⟨t2r, hokR, hcntR, hlenR, hfrmR, hdecR⟩ :=
          ih (updNode ⟨t.nodes, t.nextNode+1⟩ t.nextNode (fun nd =>
              { nd with left := invalidNodeValue,
                        leftValue :=
                          (codes.get ⟨((ln : Int)).toNat, hvl.2⟩).value }))
            (p+1) m rn (by omega) hrn (by omega) (by omega) hwr halignr
            (by rw [updNode_length]; exact hlen_t)
            (by rw [updNode_nextNode]; show t.nextNode + 1 + (rn - m) ≤ _; omega)
            (by omega)
        have hokR2 : buildHuffmanNode codes f
            (updNode ⟨t.nodes, t.nextNode+1⟩ t.nextNode (fun nd =>
              { nd with left := invalidNodeValue,
                        leftValue :=
                          (codes.get ⟨((ln : Int)).toNat, hvl.2⟩).value }))
            (p+1) (m : Int) (rn : Int) =
            .ok ((t.nextNode + 1) % 65536, t2r) := hokR
        have hEq : buildHuffmanNode codes (f+1) t p (ln : Int) (rn : Int) =
            .ok (t.nextNode % 65536,
              updNode t2r t.nextNode (fun nd =>
                { nd with right := (t.nextNode + 1) % 65536 })) := by
          unfold buildHuffmanNode
          rw [hscan]
          dsimp only
          rw [if_neg hdeg, dif_pos hn, if_pos hfril, dif_pos hvl]
          dsimp only
          rw [if_neg (show ¬ ((rn : Int) - (m : Int) = 1) from by omega)]
          rw [hokR2]
        obtain ⟨hni, hcnt, hlen2, hfrm⟩ := build_ok_spec (f+1) codes t p
          (ln : Int) (rn : Int) _ _ hEq (by positivity) (by omega) (by omega)
        refine ⟨_, hEq, by omega, by omega, hfrm, ?_⟩
        intro tf hlenf hagree k hk1 hk2 df rest hdf
        obtain ⟨df', rfl⟩ : ∃ d, df = d + 1 := ⟨df - 1, by omega⟩
        have hidxf := hagree t.nextNode (le_refl _) (by omega)
        have hnode1 : (updNode t2r t.nextNode (fun nd =>
              { nd with right := (t.nextNode + 1) % 65536 })).nodes.getD
              t.nextNode ⟨0,0,0,0⟩ =
            { t2r.nodes.getD t.nextNode ⟨0,0,0,0⟩ with
                right := (t.nextNode + 1) % 65536 } :=
          updNode_getD_eq t2r _ _ (by rw [hlenR]; omega)
        have hnode2 : t2r.nodes.getD t.nextNode ⟨0,0,0,0⟩ =
            (updNode ⟨t.nodes, t.nextNode+1⟩ t.nextNode (fun nd =>
              { nd with left := invalidNodeValue,
                        leftValue :=
                          (codes.get ⟨((ln : Int)).toNat, hvl.2⟩).value })).nodes.getD
              t.nextNode ⟨0,0,0,0⟩ :=
          hfrmR t.nextNode (by exact Nat.lt_succ_self t.nextNode)
        have hnode3 : (updNode ⟨t.nodes, t.nextNode+1⟩ t.nextNode (fun nd =>
              { nd with left := invalidNodeValue,
                        leftValue :=
                          (codes.get ⟨((ln : Int)).toNat, hvl.2⟩).value })).nodes.getD
              t.nextNode ⟨0,0,0,0⟩ =
            { (⟨t.nodes, t.nextNode+1⟩ : HuffmanTree).nodes.getD
                t.nextNode ⟨0,0,0,0⟩ with
              left := invalidNodeValue,
              leftValue := (codes.get ⟨((ln : Int)).toNat, hvl.2⟩).value } :=
          updNode_getD_eq ⟨t.nodes, t.nextNode+1⟩ _ _ hn
        have hmod : (t.nextNode + 1) % 65536 = t.nextNode + 1 :=
          Nat.mod_eq_of_lt (by omega)
        have hlb : t.nextNode < tf.nodes.length := by rw [hlenf]; omega
        by_cases hkm : k < m
        · have hkeq : k = ln := by omega
          subst hkeq
          rw [hLl, cbits_single, hbitlow k (le_refl _) (by omega),
            Bool.not_false, List.singleton_append]
          rw [decodeFrom_step_true df' tf t.nextNode rest hlb]
          rw [hidxf, hnode1, hnode2, hnode3]
          rw [if_pos rfl]
          rw [hgl]
        · push_neg at hkm
          rw [cbits_cons _ p _ (by have := hlenk k hk1 hk2; omega),
            List.cons_append, hbithigh k hkm hk2, Bool.not_true]
          rw [decodeFrom_step_false df' tf t.nextNode _ hlb]
          rw [hidxf, hnode1, hmod]
          rw [if_neg (show ¬ (t.nextNode + 1 = invalidNodeValue) from by
            rw [hiv]; omega)]
          exact hdecR tf hlenf
            (by
              intro j hj1 hj2
              have hj1b : t.nextNode + 1 ≤ j := hj1
              have hj2b : j + 1 < t.nextNode + 1 + (rn - m) := hj2
              rw [hagree j (by omega) (by omega)]
              exact updNode_getD_ne t2r t.nextNode j _ (by omega))
            k hkm hk2 df' rest (by omega)
    · have hml2 : 2 ≤ m - ln := by omega
      have hp30 : p ≤ 30 :=
        p_le_30_of_gap codes C hs ln m p hml2 (by omega) hp hcm
      have hfril1 : ¬ ((m : Int) - (ln : Int) = 1) := by omega
      obtain ⟨t2l, hokL, hcntL, hlenL, hfrmL, hdecL⟩ :=
        ih ⟨t.nodes, t.nextNode+1⟩ (p+1) ln m (by omega) (by omega) (by omega)
          (by omega) hwl halignl hlen_t
          (by show t.nextNode + 1 + (m - ln) ≤ _; omega) (by omega)
      have hokL2 : buildHuffmanNode codes f ⟨t.nodes, t.nextNode+1⟩
          (p+1) (ln : Int) (m : Int) =
          .ok ((t.nextNode + 1) % 65536, t2l) := hokL
      have hcntL2 : t2l.nextNode + 1 = t.nextNode + 1 + (m - ln) := hcntL
      have hmodl : (t.nextNode + 1) % 65536 = t.nextNode + 1 :=
        Nat.mod_eq_of_lt (by omega)
      by_cases hR1 : rn - m = 1
      · -- Branch C: left recursive, right leaf
        have hLr : (codes.getD m ⟨0,0,0⟩).codeLen = p + 1 := by
          apply side_len_eq codes C hs m p (by omega) hp
          rw [show m + 1 = rn from by omega]
          omega
        have hfrir : (rn : Int) - (m : Int) = 1 := by omega
        have hEq : buildHuffmanNode codes (f+1) t p (ln : Int) (rn : Int) =
            .ok (t.nextNode % 65536,
              updNode (updNode t2l t.nextNode (fun nd =>
                { nd with left := (t.nextNode + 1) % 65536 }))
                t.nextNode (fun nd =>
                { nd with right := invalidNodeValue,
                          rightValue :=
                            (codes.get ⟨((m : Int)).toNat, hvf.2⟩).value })) := by
          unfold buildHuffmanNode
          rw [hscan]
          dsimp only
          rw [if_neg hdeg, dif_pos hn, if_neg hfril1]
          rw [hokL2]
          dsimp only
          rw [if_pos hfrir, dif_pos hvf]
        obtain ⟨hni, hcnt, hlen2, hfrm⟩ := build_ok_spec (f+1) codes t p
          (ln : Int) (rn : Int) _ _ hEq (by positivity) (by omega) (by omega)
        refine ⟨_, hEq, by omega, by omega, hfrm, ?_⟩
        intro tf hlenf hagree k hk1 hk2 df rest hdf
        obtain ⟨df', rfl⟩ : ∃ d, df = d + 1 := ⟨df - 1, by omega⟩
        have hidxf := hagree t.nextNode (le_refl _) (by omega)
        have hnode1 : (updNode (updNode t2l t.nextNode (fun nd =>
              { nd with left := (t.nextNode + 1) % 65536 }))
              t.nextNode (fun nd =>
              { nd with right := invalidNodeValue,
                        rightValue :=
                          (codes.get ⟨((m : Int)).toNat, hvf.2⟩).value })).nodes.getD
              t.nextNode ⟨0,0,0,0⟩ =
            { (updNode t2l t.nextNode (fun nd =>
                { nd with left := (t.nextNode + 1) % 65536 })).nodes.getD
                t.nextNode ⟨0,0,0,0⟩ with
              right := invalidNodeValue,
              rightValue := (codes.get ⟨((m : Int)).toNat, hvf.2⟩).value } :=
          updNode_getD_eq (updNode t2l t.nextNode (fun nd =>
            { nd with left := (t.nextNode + 1) % 65536 })) _ _
            (by rw [updNode_length, hlenL]; omega)
        have hnode2 : (updNode t2l t.nextNode (fun nd =>
              { nd with left := (t.nextNode + 1) % 65536 })).nodes.getD
              t.nextNode ⟨0,0,0,0⟩ =
            { t2l.nodes.getD t.nextNode ⟨0,0,0,0⟩ with
              left := (t.nextNode + 1) % 65536 } :=
          updNode_getD_eq t2l _ _ (by rw [hlenL]; omega)
        have hlb : t.nextNode < tf.nodes.length := by rw [hlenf]; omega
        by_cases hkm : k < m
        · rw [cbits_cons _ p _ (by have := hlenk k hk1 hk2; omega),
            List.cons_append, hbitlow k hk1 hkm, Bool.not_false]
          rw [decodeFrom_step_true df' tf t.nextNode _ hlb]
          rw [hidxf, hnode1, hnode2, hmodl]
          rw [if_neg (show ¬ (t.nextNode + 1 = invalidNodeValue) from by
            rw [hiv]; omega)]
          exact hdecL tf hlenf
            (by
              intro j hj1 hj2
              have hj1b : t.nextNode + 1 ≤ j := hj1
              have hj2b : j + 1 < t.nextNode + 1 + (m - ln) := hj2
              rw [hagree j (by omega) (by omega)]
              rw [updNode_getD_ne _ _ _ _ (by omega)]
              exact updNode_getD_ne t2l t.nextNode j _ (by omega))
            k hk1 hkm df' rest (by omega)
        · push_neg at hkm
          have hkeq : k = m := by omega
          subst hkeq
          rw [hLr, cbits_single, hbithigh k (le_refl _) (by omega),
            Bool.not_true, List.singleton_append]
          rw [decodeFrom_step_false df' tf t.nextNode rest hlb]
          rw [hidxf, hnode1]
          rw [if_pos rfl]
          rw [hgf]
      · -- Branch D: both sides recursive
        have hrm2 : 2 ≤ rn - m := by omega
        obtain ⟨t2r, hokR, hcntR, hlenR, hfrmR, hdecR⟩ :=
          ih (updNode t2l t.nextNode (fun nd =>
              { nd with left := (t.nextNode + 1) % 65536 }))
            (p+1) m rn (by omega) hrn (by omega) (by omega) hwr halignr
            (by rw [updNode_length]; exact hlenL)
            (by show t2l.nextNode + (rn - m) ≤ _; omega)
            (by omega)
        have hokR2 : buildHuffmanNode codes f
            (updNode t2l t.nextNode (fun nd =>
              { nd with left := (t.nextNode + 1) % 65536 }))
            (p+1) (m : Int) (rn : Int) =
            .ok (t2l.nextNode % 65536, t2r) := hokR
        have hfrir1 : ¬ ((rn : Int) - (m : Int) = 1) := by omega
        have hmodr : t2l.nextNode % 65536 = t2l.nextNode :=
          Nat.mod_eq_of_lt (by omega)
        have hEq : buildHuffmanNode codes (f+1) t p (ln : Int) (rn : Int) =
            .ok (t.nextNode % 65536,
              updNode t2r t.nextNode (fun nd =>
                { nd with right := t2l.nextNode % 65536 })) := by
          unfold buildHuffmanNode
          rw [hscan]
          dsimp only
          rw [if_neg hdeg, dif_pos hn, if_neg hfril1]
          rw [hokL2]
          dsimp only
          rw [if_neg hfrir1]
          rw [hokR2]
        obtain ⟨hni, hcnt, hlen2, hfrm⟩ := build_ok_spec (f+1) codes t p
          (ln : Int) (rn : Int) _ _ hEq (by positivity) (by omega) (by omega)
        refine ⟨_, hEq, by omega, by omega, hfrm, ?_⟩
        intro tf hlenf hagree k hk1 hk2 df rest hdf
        obtain ⟨df', rfl⟩ : ∃ d, df = d + 1 := ⟨df - 1, by omega⟩
        have hidxf := hagree t.nextNode (le_refl _) (by omega)
        have hnode1 : (updNode t2r t.nextNode (fun nd =>
              { nd with right := t2l.nextNode % 65536 })).nodes.getD
              t.nextNode ⟨0,0,0,0⟩ =
            { t2r.nodes.getD t.nextNode ⟨0,0,0,0⟩ with
                right := t2l.nextNode % 65536 } :=
          updNode_getD_eq t2r _ _ (by rw [hlenR]; omega)
        have hnode2 : t2r.nodes.getD t.nextNode ⟨0,0,0,0⟩ =
            (updNode t2l t.nextNode (fun nd =>
              { nd with left := (t.nextNode + 1) % 65536 })).nodes.getD
              t.nextNode ⟨0,0,0,0⟩ :=
          hfrmR t.nextNode (by show t.nextNode < t2l.nextNode; omega)
        have hnode3 : (updNode t2l t.nextNode (fun nd =>
              { nd with left := (t.nextNode + 1) % 65536 })).nodes.getD
              t.nextNode ⟨0,0,0,0⟩ =
            { t2l.nodes.getD t.nextNode ⟨0,0,0,0⟩ with
              left := (t.nextNode + 1) % 65536 } :=
          updNode_getD_eq t2l _ _ (by rw [hlenL]; omega)
        have hlb : t.nextNode < tf.nodes.length := by rw [hlenf]; omega
        by_cases hkm : k < m
        · rw [cbits_cons _ p _ (by have := hlenk k hk1 hk2; omega),
            List.cons_append, hbitlow k hk1 hkm, Bool.not_false]
          rw [decodeFrom_step_true df' tf t.nextNode _ hlb]
          rw [hidxf, hnode1, hnode2, hnode3, hmodl]
          rw [if_neg (show ¬ (t.nextNode + 1 = invalidNodeValue) from by
            rw [hiv]; omega)]
          exact hdecL tf hlenf
            (by
              intro j hj1 hj2
              have hj1b : t.nextNode + 1 ≤ j := hj1
              have hj2b : j + 1 < t.nextNode + 1 + (m - ln) := hj2
              rw [hagree j (by omega) (by omega)]
              rw [updNode_getD_ne _ _ _ _ (by omega)]
              rw [hfrmR j (by show j < t2l.nextNode; omega)]
              exact updNode_getD_ne t2l t.nextNode j _ (by omega))
            k hk1 hkm df' rest (by omega)
        · push_neg at hkm
          rw [cbits_cons _ p _ (by have := hlenk k hk1 hk2; omega),
            List.cons_append, hbithigh k hkm hk2, Bool.not_true]
          rw [decodeFrom_step_false df' tf t.nextNode _ hlb]
          rw [hidxf, hnode1, hmodr]
          rw [if_neg (show ¬ (t2l.nextNode = invalidNodeValue) from by
            rw [hiv]; omega)]
          exact hdecR tf hlenf
            (by
              intro j hj1 hj2
              have hj1b : t2l.nextNode ≤ j := hj1
              have hj2b : j + 1 < t2l.nextNode + (rn - m) := hj2
              rw [hagree j (by omega) (by omega)]
              exact updNode_getD_ne t2r t.nextNode j _ (by omega))
            k hkm hk2 df' rest (by omega)

end Bzip2
namespace Bzip2

lemma ps_length (lengths : List Nat) :
    (sortPairs (mkPairs lengths)).length = lengths.length := by
  rw [sortPairs, List.length_insertionSort]
  simp [mkPairs]

lemma canonPrefixVal_reverse (ps : List SymbolLengthPair) (k : Nat)
    (hk : k ≤ ps.length) :
    canonPrefixVal ps.reverse k + canonPrefixVal ps (ps.length - k) =
      canonPrefixVal ps ps.length := by
  unfold canonPrefixVal
  rw [List.take_reverse, List.map_reverse, List.sum_reverse, List.take_length]
  rw [Nat.add_comm, ← List.sum_append, ← List.map_append, List.take_append_drop]

lemma bitsMSB_complement (F ck L : Nat) (hL1 : 1 ≤ L) (hL32 : L ≤ 32)
    (halign : 2 ^ (32 - L) ∣ ck) (hsum : F + ck + 2 ^ (32 - L) = 2 ^ 32) :
    bitsMSB F L = cbits ck 0 L := by
  obtain ⟨c1, hc1⟩ := halign
  have hpow : (2:Nat) ^ 32 = 2 ^ L * 2 ^ (32 - L) := by
    rw [← pow_add]
    congr 1
    omega
  have hc1lt : c1 < 2 ^ L := by
    by_contra hcon
    push_neg at hcon
    have h1 : 2 ^ L * 2 ^ (32 - L) ≤ c1 * 2 ^ (32 - L) :=
      Nat.mul_le_mul_right _ hcon
    have h2 : ck = c1 * 2 ^ (32 - L) := by rw [hc1, Nat.mul_comm]
    have h3 : 0 < 2 ^ (32 - L) := by positivity
    omega
  have hF : F = (2 ^ L - 1 - c1) * 2 ^ (32 - L) := by
    have hexp : (2 ^ L - 1 - c1) * 2 ^ (32 - L) =
        2 ^ L * 2 ^ (32 - L) - 1 * 2 ^ (32 - L) - c1 * 2 ^ (32 - L) := by
      rw [Nat.sub_mul, Nat.sub_mul]
    have h2 : ck = c1 * 2 ^ (32 - L) := by rw [hc1, Nat.mul_comm]
    have h3 : 0 < 2 ^ (32 - L) := by positivity
    omega
  have hlen : (bitsMSB F L).length = (cbits ck 0 L).length := by
    rw [cbits_len]
    simp [bitsMSB]
  apply List.ext_getElem hlen
  intro i hi1 hi2
  have hiL : i < L := by simpa [bitsMSB] using hi1
  show (bitsMSB F L)[i] = (cbits ck 0 L)[i]
  have hb1 : (bitsMSB F L)[i] = F.testBit (31 - i) := by
    simp [bitsMSB]
  have hb2 : (cbits ck 0 L)[i] = !(ck.testBit (31 - (0 + i))) := by
    simp [cbits]
  rw [hb1, hb2]
  have hsplit : 31 - i = (32 - L) + (L - 1 - i) := by omega
  have hck2 : ck = c1 * 2 ^ (32 - L) := by rw [hc1, Nat.mul_comm]
  rw [show 31 - (0 + i) = 31 - i from by rw [Nat.zero_add], hsplit, hF, hck2,
    testBit_mul_pow, testBit_mul_pow,
    testBit_complement L c1 (L - 1 - i) hc1lt (by omega)]

end Bzip2
namespace Bzip2

lemma getD_reverse_pair (l : List SymbolLengthPair) (k : Nat) (hk : k < l.length) :
    l.reverse.getD k ⟨0,0⟩ = l.getD (l.length - 1 - k) ⟨0,0⟩ := by
  rw [List.getD_eq_getElem _ _ (by simpa using hk),
      List.getD_eq_getElem _ _ (by omega)]
  exact List.getElem_reverse _

/-- C1: on a complete code of at least two symbols (lengths in `[1, 32]`,
Kraft equality), construction succeeds and feeding any symbol's canonical code
bits to `Decode` returns exactly that symbol with no bits left over. -/
theorem claim1_roundtrip (lengths : List Nat)
    (h2 : 2 ≤ lengths.length) (h16 : lengths.length ≤ 65536)
    (hlen : ∀ L ∈ lengths, 1 ≤ L ∧ L ≤ 32)
    (hkraft : (lengths.map (fun L => 2 ^ (32 - L))).sum = 4294967296) :
    ∃ t, newHuffmanTree lengths = .ok t ∧
      ∀ s, s < lengths.length →
        Decode t (canonicalBits lengths s) = .ok (s, []) := by
  have hs := codeSpec_of lengths h2 h16 hlen hkraft
  have hcodeslen : (huffmanCodesOf lengths).length = lengths.length :=
    huffmanCodesOf_length lengths
  have hqslen := qs_length lengths
  have hpsl := ps_length lengths
  have hCn : canonPrefixVal ((sortPairs (mkPairs lengths)).reverse)
      lengths.length = 4294967296 := by
    rw [show lengths.length = ((sortPairs (mkPairs lengths)).reverse).length
        from (qs_length lengths).symm, canonPrefixVal_total]
    exact qs_total lengths hlen hkraft
  obtain ⟨t2, hok, hcnt, hlen2, hfrm, hdec⟩ :=
    build_decode (huffmanCodesOf lengths)
      (canonPrefixVal ((sortPairs (mkPairs lengths)).reverse)) hs hugeFuel
      ⟨List.replicate lengths.length ⟨0,0,0,0⟩, 0⟩ 0 0 lengths.length
      (by omega) (by omega) (by omega) (by omega)
      (by
        rw [canonPrefixVal_zero, hCn]
        norm_num)
      (by rw [canonPrefixVal_zero]; exact dvd_zero _)
      (by simp [hcodeslen])
      (by show 0 + lengths.length ≤ _; omega)
      (by show 32 ≤ hugeFuel + 0; norm_num [hugeFuel])
  have hok2 : buildHuffmanNode (huffmanCodesOf lengths) hugeFuel
      ⟨List.replicate lengths.length ⟨0,0,0,0⟩, 0⟩ 0 0 (lengths.length : Int) =
      .ok (0 % 65536, t2) := hok
  have hNT : newHuffmanTree lengths = .ok t2 := by
    unfold newHuffmanTree newHuffmanTreeF
    rw [if_neg (show ¬ (lengths.length < 2) from by omega)]
    dsimp only
    rw [hok2]
  refine ⟨t2, hNT, ?_⟩
  intro s hsn
  obtain ⟨hjlt, hget⟩ := pairIndexOf_spec lengths s hsn h16
  have hjlt2 : pairIndexOf (sortPairs (mkPairs lengths)) s < lengths.length := by
    rw [← hpsl]
    exact hjlt
  have hklt : lengths.length - 1 - pairIndexOf (sortPairs (mkPairs lengths)) s
      < lengths.length := by omega
  have hmemL : lengths.getD s 0 ∈ lengths := by
    rw [List.getD_eq_getElem _ _ hsn]
    exact List.getElem_mem hsn
  have hLs := hlen _ hmemL
  have hpsj : (sortPairs (mkPairs lengths)).getD
      (pairIndexOf (sortPairs (mkPairs lengths)) s) ⟨0,0⟩ =
      ⟨s, lengths.getD s 0⟩ := by
    rw [List.getD_eq_getElem _ _ hjlt]
    exact hget
  have hqsk : ((sortPairs (mkPairs lengths)).reverse).getD
      (lengths.length - 1 - pairIndexOf (sortPairs (mkPairs lengths)) s)
      ⟨0,0⟩ = ⟨s, lengths.getD s 0⟩ := by
    rw [getD_reverse_pair _ _ (by rw [hpsl]; omega)]
    rw [show (sortPairs (mkPairs lengths)).length - 1 -
        (lengths.length - 1 - pairIndexOf (sortPairs (mkPairs lengths)) s) =
        pairIndexOf (sortPairs (mkPairs lengths)) s from by rw [hpsl]; omega]
    exact hpsj
  have hcodesk := huffmanCodesOf_getD lengths hlen hkraft
    (lengths.length - 1 - pairIndexOf (sortPairs (mkPairs lengths)) s) hklt
  rw [hqsk] at hcodesk
  have hLk : ((huffmanCodesOf lengths).getD
      (lengths.length - 1 - pairIndexOf (sortPairs (mkPairs lengths)) s)
      ⟨0,0,0⟩).codeLen = lengths.getD s 0 := by
    rw [hcodesk]
  have hVk : ((huffmanCodesOf lengths).getD
      (lengths.length - 1 - pairIndexOf (sortPairs (mkPairs lengths)) s)
      ⟨0,0,0⟩).value = s := by
    rw [hcodesk]
  have hsum : canonPrefixVal (sortPairs (mkPairs lengths))
        (pairIndexOf (sortPairs (mkPairs lengths)) s) +
      canonPrefixVal ((sortPairs (mkPairs lengths)).reverse)
        (lengths.length - 1 - pairIndexOf (sortPairs (mkPairs lengths)) s) +
      2 ^ (32 - lengths.getD s 0) = 4294967296 := by
    have hrev := canonPrefixVal_reverse (sortPairs (mkPairs lengths))
      (lengths.length - 1 - pairIndexOf (sortPairs (mkPairs lengths)) s)
      (by rw [hpsl]; omega)
    rw [show (sortPairs (mkPairs lengths)).length -
        (lengths.length - 1 - pairIndexOf (sortPairs (mkPairs lengths)) s) =
        pairIndexOf (sortPairs (mkPairs lengths)) s + 1 from
        by rw [hpsl]; omega] at hrev
    rw [canonPrefixVal_succ_get _ _ (by rw [hpsl]; exact hjlt2)] at hrev
    rw [hpsj, show (⟨s, lengths.getD s 0⟩ : SymbolLengthPair).length =
        lengths.getD s 0 from rfl] at hrev
    rw [incGo_eq _ hLs.1 hLs.2] at hrev
    have htot : canonPrefixVal (sortPairs (mkPairs lengths))
        (sortPairs (mkPairs lengths)).length = 4294967296 := by
      rw [canonPrefixVal_total]
      have hsr : ((sortPairs (mkPairs lengths)).map
            (fun p => incGo p.length)).sum =
          (((sortPairs (mkPairs lengths)).reverse).map
            (fun p => incGo p.length)).sum := by
        rw [List.map_reverse, List.sum_reverse]
      rw [hsr]
      exact qs_total lengths hlen hkraft
    omega
  have halignk : 2 ^ (32 - lengths.getD s 0) ∣
      canonPrefixVal ((sortPairs (mkPairs lengths)).reverse)
        (lengths.length - 1 - pairIndexOf (sortPairs (mkPairs lengths)) s) := by
    have := hs.align
      (lengths.length - 1 - pairIndexOf (sortPairs (mkPairs lengths)) s)
      (by omega)
    rw [hLk] at this
    exact this
  have hbits : canonicalBits lengths s =
      cbits (canonPrefixVal ((sortPairs (mkPairs lengths)).reverse)
        (lengths.length - 1 - pairIndexOf (sortPairs (mkPairs lengths)) s))
        0 (lengths.getD s 0) := by
    unfold canonicalBits canonicalCodeVal
    rw [Nat.mod_eq_of_lt (show s < 65536 from by omega)]
    apply bitsMSB_complement _ _ _ hLs.1 hLs.2 halignk
    rw [show (2:Nat) ^ 32 = 4294967296 from by norm_num]
    exact hsum
  have hdec2 := hdec t2 hlen2 (fun j h1 h2 => rfl)
    (lengths.length - 1 - pairIndexOf (sortPairs (mkPairs lengths)) s)
    (by omega) (by omega) hugeFuel []
    (by show 32 ≤ hugeFuel + 0; norm_num [hugeFuel])
  rw [hLk, hVk, List.append_nil] at hdec2
  show Decode t2 (canonicalBits lengths s) = .ok (s, [])
  unfold Decode
  rw [hbits]
  exact hdec2

end Bzip2
namespace Bzip2

theorem claim1_witness :
    newHuffmanTree [1, 2, 2] =
      .ok ⟨[⟨1, 65535, 0, 0⟩, ⟨65535, 65535, 2, 1⟩, ⟨0, 0, 0, 0⟩], 2⟩ ∧
    Decode (⟨[⟨1, 65535, 0, 0⟩, ⟨65535, 65535, 2, 1⟩, ⟨0, 0, 0, 0⟩], 2⟩ :
        HuffmanTree) (canonicalBits [1, 2, 2] 0) = .ok (0, []) ∧
    Decode (⟨[⟨1, 65535, 0, 0⟩, ⟨65535, 65535, 2, 1⟩, ⟨0, 0, 0, 0⟩], 2⟩ :
        HuffmanTree) (canonicalBits [1, 2, 2] 2) = .ok (2, []) := by
  obtain ⟨t, hok, hdec⟩ := claim1_roundtrip [1, 2, 2] (by norm_num) (by norm_num)
    (by intro L hL; fin_cases hL <;> omega) (by rfl)
  have ht : t = ⟨[⟨1, 65535, 0, 0⟩, ⟨65535, 65535, 2, 1⟩, ⟨0, 0, 0, 0⟩], 2⟩ := by
    have hlit : newHuffmanTree [1, 2, 2] =
        .ok (⟨[⟨1, 65535, 0, 0⟩, ⟨65535, 65535, 2, 1⟩, ⟨0, 0, 0, 0⟩], 2⟩ :
          HuffmanTree) := rfl
    rw [hlit] at hok
    exact (Except.ok.inj hok).symm
  subst ht
  exact ⟨hok, hdec 0 (by norm_num), hdec 2 (by norm_num)⟩

end Bzip2
